import Mathlib

/-!
Verification development for the `mini-ai-1c` repository.

The Rust sources under `src/tauri-app/src-tauri/src/` are shallowly embedded
here as executable Lean functions over `List Char` (the model of Rust `&str`
slices) and `List Nat` (the model of raw byte buffers).  The embedded
components are:

* the SSE streaming-response aggregator of `ai_client.rs::stream_chat_completion`
  (buffering, event framing, the `[DONE]` sentinel, the `<thinking>` two-state
  content sub-machine, and the tool-call accumulator array);
* `ai_client.rs::extract_bsl_code`;
* the diagnostics request `bsl_client.rs::analyze_code` (pull strategy,
  publish-notification wait loop, timeout path, and the `didOpen`/`didClose`
  notifications it sends);
* the orchestrator loop of `commands.rs::stream_chat` (iteration ceiling,
  tool-call rounds, BSL validation, and the disabled auto-fix branch);
* a reconciler modelled from the specification (the repository contains no
  reconciler implementation under `src/`).

Loops whose Rust termination argument is not structural are given an explicit
`fuel` parameter; every wrapper passes a fuel that provably dominates the
number of iterations the Rust loop can make, so the fuel-exhaustion branch is
unreachable on the wrapper's calls.
-/

/-! ## String utilities: substring search, mirroring Rust `str::find` -/

/-- Boolean prefix test on character lists (`pat` is a prefix of `s`). -/
def isPreOf : List Char → List Char → Bool
  | [], _ => true
  | _ :: _, [] => false
  | a :: as, b :: bs => a = b && isPreOf as bs

/-- First index at which `pat` occurs in `s`, mirroring Rust `str::find`
(character indices stand in for byte indices; all patterns used by the
embedded code are ASCII). -/
def findSub (pat : List Char) : List Char → Option Nat
  | [] => if isPreOf pat [] then some 0 else none
  | c :: t => if isPreOf pat (c :: t) then some 0 else (findSub pat t).map (· + 1)

theorem isPreOf_length {pat s : List Char} (h : isPreOf pat s = true) :
    pat.length ≤ s.length := by
  induction pat generalizing s with
  | nil => simp
  | cons a as ih =>
    cases s with
    | nil => simp [isPreOf] at h
    | cons b bs =>
      simp only [isPreOf, Bool.and_eq_true] at h
      simpa using ih h.2

theorem isPreOf_append_self (pat r : List Char) : isPreOf pat (pat ++ r) = true := by
  induction pat with
  | nil => simp [isPreOf]
  | cons a as ih => simp [isPreOf, ih]

theorem isPreOf_take {pat s : List Char} (h : isPreOf pat s = true) :
    pat = s.take pat.length := by
  induction pat generalizing s with
  | nil => simp
  | cons a as ih =>
    cases s with
    | nil => simp [isPreOf] at h
    | cons b bs =>
      simp only [isPreOf, Bool.and_eq_true, decide_eq_true_eq] at h
      simpa [List.take, h.1] using ih h.2

theorem isPreOf_append_of_le {pat s : List Char} (u : List Char)
    (hlen : pat.length ≤ s.length) : isPreOf pat (s ++ u) = isPreOf pat s := by
  induction pat generalizing s with
  | nil => simp [isPreOf]
  | cons a as ih =>
    cases s with
    | nil => simp at hlen
    | cons b bs =>
      simp only [List.cons_append, isPreOf, List.append_eq]
      rw [ih (by simpa using hlen)]

theorem findSub_le {pat s : List Char} {p : Nat} (h : findSub pat s = some p) :
    p + pat.length ≤ s.length := by
  induction s generalizing p with
  | nil =>
    simp only [findSub] at h
    split at h
    · rename_i hp
      have := isPreOf_length hp
      simp at this
      simp_all
    · simp at h
  | cons c t ih =>
    simp only [findSub] at h
    split at h
    · rename_i hp
      have := isPreOf_length hp
      simp at h
      omega
    · cases hq : findSub pat t with
      | none => simp [hq] at h
      | some q =>
        simp [hq] at h
        have := ih hq
        simp
        omega

theorem findSub_nil_pat (u : List Char) : findSub [] u = some 0 := by
  cases u <;> simp [findSub, isPreOf]

theorem findSub_append_mono {pat s : List Char} {p : Nat} (u : List Char)
    (h : findSub pat s = some p) : findSub pat (s ++ u) = some p := by
  induction s generalizing p with
  | nil =>
    simp only [findSub] at h
    split at h
    · rename_i hp
      have hpat : pat = [] := by
        cases pat with
        | nil => rfl
        | cons a as => exact absurd (isPreOf_length hp) (by simp)
      subst hpat
      simp only [List.nil_append]
      rw [findSub_nil_pat]
      exact h
    · simp at h
  | cons c t ih =>
    simp only [findSub] at h
    split at h
    · rename_i hp
      simp only [List.cons_append, findSub, List.append_eq]
      have hiso : isPreOf pat (c :: (t ++ u)) = true := by
        have := isPreOf_append_of_le (s := c :: t) u (isPreOf_length hp)
        simpa [hp] using this
      rw [hiso]
      simpa using h
    · rename_i hp
      cases hq : findSub pat t with
      | none => simp [hq] at h
      | some q =>
        simp only [hq, Option.map_some'] at h
        have hlen : pat.length ≤ (c :: t).length := by
          have := findSub_le hq
          simp
          omega
        have hiso : isPreOf pat (c :: (t ++ u)) = isPreOf pat (c :: t) := by
          have := isPreOf_append_of_le (s := c :: t) u hlen
          simpa using this
        simp only [List.cons_append, findSub, List.append_eq, hiso]
        simp only [hp, if_false]
        rw [ih hq]
        simpa using h

theorem findSub_none_of_head_notMem {hc : Char} {pr s : List Char}
    (h : hc ∉ s) : findSub (hc :: pr) s = none := by
  induction s with
  | nil => simp [findSub, isPreOf]
  | cons c t ih =>
    have hne : hc ≠ c := fun he => h (he ▸ List.mem_cons_self c t)
    have ht : hc ∉ t := fun hm => h (List.mem_cons_of_mem c hm)
    simp [findSub, isPreOf, hne, ih ht]

theorem findSub_boundary {hc : Char} {pre : List Char} (pr rest : List Char)
    (h : hc ∉ pre) : findSub (hc :: pr) (pre ++ (hc :: pr) ++ rest) = some pre.length := by
  induction pre with
  | nil =>
    have hiso : isPreOf (hc :: pr) (([] : List Char) ++ (hc :: pr) ++ rest) = true := by
      simpa using isPreOf_append_self (hc :: pr) rest
    simp only [List.nil_append] at hiso ⊢
    cases hrw : (hc :: pr) ++ rest with
    | nil => simp at hrw
    | cons x xs =>
      rw [hrw] at hiso
      simp [findSub, hiso]
  | cons c t ih =>
    have hne : hc ≠ c := fun he => h (he ▸ List.mem_cons_self c t)
    have ht : hc ∉ t := fun hm => h (List.mem_cons_of_mem c hm)
    have hdec : (decide (hc = c)) = false := by simp [hne]
    simp only [List.cons_append, findSub, isPreOf, List.append_eq, hdec, Bool.false_and,
      if_false]
    have := ih ht
    simp only [List.append_eq] at this ⊢
    rw [this]
    simp

/-! ## Line splitting, mirroring Rust `str::lines` -/

/-- Splits a character list at every occurrence of `sep`, keeping all pieces
(the model of Rust `str::split`). -/
def splitOnChar (sep : Char) : List Char → List (List Char)
  | [] => [[]]
  | c :: t =>
    if c = sep then [] :: splitOnChar sep t
    else
      match splitOnChar sep t with
      | [] => [[c]]
      | h :: r => (c :: h) :: r

/-- Drops one trailing carriage return, as Rust `str::lines` does per line. -/
def stripCr (l : List Char) : List Char :=
  if l.getLast? = some '\r' then l.dropLast else l

/-- The model of Rust `str::lines`: split on `'\n'`, drop the final empty piece
produced by a trailing newline, and strip one trailing `'\r'` per line. -/
def linesOf (s : List Char) : List (List Char) :=
  if s = [] then []
  else
    let ps := splitOnChar '\n' s
    let ps := if ps.getLast? = some [] then ps.dropLast else ps
    ps.map stripCr

theorem splitOnChar_ne_nil (sep : Char) (s : List Char) : splitOnChar sep s ≠ [] := by
  cases s with
  | nil => simp [splitOnChar]
  | cons c t =>
    simp only [splitOnChar]
    split
    · simp
    · split <;> simp

theorem splitOnChar_of_notMem {sep : Char} {s : List Char} (h : sep ∉ s) :
    splitOnChar sep s = [s] := by
  induction s with
  | nil => simp [splitOnChar]
  | cons c t ih =>
    have hne : c ≠ sep := fun he => h (he ▸ List.mem_cons_self c t)
    have ht : sep ∉ t := fun hm => h (List.mem_cons_of_mem c hm)
    simp [splitOnChar, hne, ih ht]

theorem linesOf_single {s : List Char} (hnl : '\n' ∉ s) (hcr : '\r' ∉ s)
    (hne : s ≠ []) : linesOf s = [s] := by
  have hsplit := splitOnChar_of_notMem hnl
  have hlast : s.getLast? ≠ some '\r' := by
    intro h
    rcases List.mem_getLast?_eq_getLast (l := s) (x := '\r')
      (by simpa [Option.mem_def] using h) with ⟨hn, he⟩
    exact hcr (he ▸ List.getLast_mem hn)
  simp only [linesOf, hne, if_false, hsplit]
  have hcond : ([s].getLast? = some []) = False := by
    simp only [List.getLast?_singleton]
    simp [hne]
  simp only [hcond, if_false]
  simp [stripCr, hlast]

/-! ## The `<thinking>` two-state content sub-machine
(`ai_client.rs::stream_chat_completion`, lines 393-429).

In the Rust source this is a `while !current_content.is_empty()` loop over one
delta's content fragment, with `is_thinking` living across fragments.  Visible
text goes to `full_content` (and the `chat-chunk` event); thinking text goes
only to the `chat-thinking-chunk` event, which we accumulate as the thinking
channel.  The markers are `"<thinking>"` (10 chars) and `"</thinking>"`
(11 chars), searched with `str::find` within the current fragment only. -/

def thinkStartMark : List Char := "<thinking>".toList

def thinkEndMark : List Char := "</thinking>".toList

/-- Fuelled version of the content loop; the wrapper `processContent` passes
`cur.length`, which dominates the iteration count because every loop iteration
either ends the loop or consumes at least the matched marker (10 or 11 chars). -/
def procContentF : Nat → Bool → List Char → List Char → List Char →
    Bool × List Char × List Char
  | 0, th, vis, tk, _ => (th, vis, tk)
  | fuel + 1, th, vis, tk, cur =>
    if cur = [] then (th, vis, tk)
    else if th = false then
      match findSub thinkStartMark cur with
      | some p => procContentF fuel true (vis ++ cur.take p) tk (cur.drop (p + 10))
      | none => (false, vis ++ cur, tk)
    else
      match findSub thinkEndMark cur with
      | some p => procContentF fuel false vis (tk ++ cur.take p) (cur.drop (p + 11))
      | none => (th, vis, tk ++ cur)

/-- One content fragment through the `<thinking>` sub-machine: given the
persistent `is_thinking` flag, the visible accumulator (`full_content`) and the
thinking channel, returns their updated values. -/
def processContent (th : Bool) (vis tk cur : List Char) : Bool × List Char × List Char :=
  procContentF cur.length th vis tk cur

/-! ## Tool-call accumulators
(`ai_client.rs::stream_chat_completion`, lines 433-470). -/

/-- Accumulated tool call (`ai_client.rs::ToolCall` with its nested
`ToolCallFunction` flattened). -/
structure ToolCallM where
  id : List Char
  ctype : List Char
  name : List Char
  args : List Char
deriving DecidableEq

/-- The entry pushed while `accumulated_tool_calls.len() <= idx`. -/
def placeholderTc : ToolCallM :=
  { id := [], ctype := "function".toList, name := [], args := [] }

/-- Model of `ai_client.rs::ToolCallFunctionDelta`. -/
structure TcFnDeltaM where
  name : Option (List Char)
  arguments : Option (List Char)
deriving DecidableEq

/-- Model of `ai_client.rs::ToolCallDelta` (the `r#type` field is ignored by
the accumulation code and omitted). -/
structure TcDeltaM where
  index : Option Nat
  id : Option (List Char)
  function : Option TcFnDeltaM
deriving DecidableEq

/-- Field-wise merge of one fragment into one accumulator: each present field
is appended by string concatenation. -/
def mergeTc (tc : ToolCallM) (d : TcDeltaM) : ToolCallM :=
  let tc1 := match d.id with
    | some i => { tc with id := tc.id ++ i }
    | none => tc
  match d.function with
  | some f =>
    let tc2 := match f.name with
      | some n => { tc1 with name := tc1.name ++ n }
      | none => tc1
    match f.arguments with
    | some a => { tc2 with args := tc2.args ++ a }
    | none => tc2
  | none => tc1

/-- Model of the per-fragment accumulation step: `idx = index.unwrap_or(0)`,
pad with placeholders while `len <= idx`, then merge the fragment into the
accumulator at `idx`. -/
def applyToolDelta (tcs : List ToolCallM) (d : TcDeltaM) : List ToolCallM :=
  let idx := d.index.getD 0
  let padded := tcs ++ List.replicate (idx + 1 - tcs.length) placeholderTc
  padded.set idx (mergeTc (padded[idx]?.getD placeholderTc) d)

/-! ## The SSE streaming-response aggregator
(`ai_client.rs::stream_chat_completion`, lines 362-486).

The network chunk sequence is modelled as a list of character lists (each the
result of `String::from_utf8_lossy` on one byte chunk; the byte level is
modelled separately by `utf8Lossy`).  The payload parser
(`serde_json::from_str::<StreamChunk>`) is abstracted as a function parameter
`parse`; a `none` result models a parse failure, which the source skips. -/

/-- Model of `ai_client.rs::StreamDelta`. -/
structure DeltaM where
  content : Option (List Char)
  tool_calls : Option (List TcDeltaM)
deriving DecidableEq

/-- Model of `ai_client.rs::StreamChoice` (ignoring `finish_reason`, which the
source marks `dead_code`). -/
structure ChoiceM where
  delta : DeltaM
deriving DecidableEq

/-- Model of `ai_client.rs::StreamChunk`. -/
structure StreamChunkM where
  choices : List ChoiceM
deriving DecidableEq

/-- The mutable locals of the streaming loop that survive across chunks,
minus the rolling `buffer` (threaded separately by the drain loop). -/
structure CoreSt where
  fullContent : List Char
  thinkingOut : List Char
  isThinking : Bool
  toolCalls : List ToolCallM
deriving DecidableEq

def initCore : CoreSt :=
  { fullContent := [], thinkingOut := [], isThinking := false, toolCalls := [] }

/-- The finished turn: visible text, thinking channel, accumulated tool calls
(the spec's `AssistantTurn`). -/
structure TurnM where
  visible : List Char
  thinkingTxt : List Char
  toolCalls : List ToolCallM
deriving DecidableEq

def coreTurn (c : CoreSt) : TurnM :=
  { visible := c.fullContent, thinkingTxt := c.thinkingOut, toolCalls := c.toolCalls }

/-- Abstraction of `serde_json::from_str::<StreamChunk>`. -/
abbrev ParseFn := List Char → Option StreamChunkM

def dataMark : List Char := "data: ".toList

def doneMark : List Char := "[DONE]".toList

def eventDelim : List Char := "\n\n".toList

/-- Applying one parsed delta: content through the thinking sub-machine, then
tool-call fragments through the accumulator. -/
def applyDelta (st : CoreSt) (d : DeltaM) : CoreSt :=
  let st1 := match d.content with
    | some c =>
      let r := processContent st.isThinking st.fullContent st.thinkingOut c
      { st with isThinking := r.1, fullContent := r.2.1, thinkingOut := r.2.2 }
    | none => st
  match d.tool_calls with
  | some ds => { st1 with toolCalls := ds.foldl applyToolDelta st1.toolCalls }
  | none => st1

/-- Result of processing one data line: either the turn continues or the
`[DONE]` sentinel finalized it. -/
inductive LineRes where
  | running (c : CoreSt)
  | done (t : TurnM)
deriving DecidableEq

/-- One line of one event (`for line in event.lines()`): lines without the
`data: ` prefix are skipped; `[DONE]` finalizes; otherwise the parsed delta of
the first choice is applied. -/
def procLine (parse : ParseFn) (st : CoreSt) (line : List Char) : LineRes :=
  if isPreOf dataMark line then
    let data := line.drop 6
    if data = doneMark then .done (coreTurn st)
    else
      match parse data with
      | some ch =>
        match ch.choices with
        | c :: _ => .running (applyDelta st c.delta)
        | [] => .running st
      | none => .running st
  else .running st

/-- All lines of one event, stopping at the first `[DONE]`. -/
def procLines (parse : ParseFn) (st : CoreSt) : List (List Char) → LineRes
  | [] => .running st
  | l :: ls =>
    match procLine parse st l with
    | .done t => .done t
    | .running st2 => procLines parse st2 ls

/-- Aggregator state between chunks: either still streaming (rolling buffer
plus core state) or finalized by the sentinel. -/
inductive AggRes where
  | running (buf : List Char) (core : CoreSt)
  | done (t : TurnM)
deriving DecidableEq

/-- Fuelled event-extraction loop (`while let Some(pos) = buffer.find("\n\n")`):
each iteration removes one complete event (`buffer[..pos]`) and its two-char
delimiter from the buffer and processes the event's lines.  The wrapper passes
`buf.length`, which dominates the iteration count because every iteration
consumes at least the two delimiter characters. -/
def drainF (parse : ParseFn) : Nat → List Char → CoreSt → AggRes
  | 0, buf, core => .running buf core
  | fuel + 1, buf, core =>
    match findSub eventDelim buf with
    | none => .running buf core
    | some p =>
      match procLines parse core (linesOf (buf.take p)) with
      | .done t => .done t
      | .running c2 => drainF parse fuel (buf.drop (p + 2)) c2

def drain (parse : ParseFn) (buf : List Char) (core : CoreSt) : AggRes :=
  drainF parse buf.length buf core

/-- Feeding one chunk: append to the buffer, then extract complete events.
Once the sentinel has finalized the turn the loop has returned, so further
chunks change nothing. -/
def feedChunk (parse : ParseFn) (r : AggRes) (chunk : List Char) : AggRes :=
  match r with
  | .done t => .done t
  | .running buf core => drain parse (buf ++ chunk) core

/-- The whole streaming loop over a chunk sequence, starting from the empty
buffer and pristine accumulators. -/
def runChunks (parse : ParseFn) (chunks : List (List Char)) : AggRes :=
  chunks.foldl (feedChunk parse) (.running [] initCore)

/-- The value returned by `stream_chat_completion`: the sentinel's turn if one
was seen, otherwise whatever was accumulated when the transport ended (any
unterminated buffered bytes are dropped, as in the source). -/
def finishTurn : AggRes → TurnM
  | .done t => t
  | .running _ core => coreTurn core

/-! ## Byte-level chunk decoding
(`ai_client.rs` line 371: `String::from_utf8_lossy(&chunk)` — applied to each
network chunk separately). -/

/-- Continuation-byte test `0x80..=0xBF`. -/
def contOk (b : Nat) : Bool := 0x80 ≤ b && b ≤ 0xBF

/-- The U+FFFD replacement character emitted for invalid sequences. -/
def replChar : Char := Char.ofNat 0xFFFD

/-- Model of Rust `String::from_utf8_lossy` (WHATWG maximal-subpart
substitution): well-formed UTF-8 sequences decode to their scalar value, and
each maximal prefix of an ill-formed sequence yields one U+FFFD. -/
def utf8Lossy : List Nat → List Char
  | [] => []
  | b :: r =>
    if b ≤ 0x7F then Char.ofNat b :: utf8Lossy r
    else if b < 0xC2 then replChar :: utf8Lossy r
    else if b ≤ 0xDF then
      match r with
      | b2 :: r2 =>
        if contOk b2 then Char.ofNat ((b - 0xC0) * 64 + (b2 - 0x80)) :: utf8Lossy r2
        else replChar :: utf8Lossy (b2 :: r2)
      | [] => [replChar]
    else if b ≤ 0xEF then
      let lo2 := if b = 0xE0 then 0xA0 else 0x80
      let hi2 := if b = 0xED then 0x9F else 0xBF
      match r with
      | b2 :: r2 =>
        if lo2 ≤ b2 && b2 ≤ hi2 then
          match r2 with
          | b3 :: r3 =>
            if contOk b3 then
              Char.ofNat ((b - 0xE0) * 4096 + (b2 - 0x80) * 64 + (b3 - 0x80)) :: utf8Lossy r3
            else replChar :: utf8Lossy (b3 :: r3)
          | [] => [replChar]
        else replChar :: utf8Lossy (b2 :: r2)
      | [] => [replChar]
    else if b ≤ 0xF4 then
      let lo2 := if b = 0xF0 then 0x90 else 0x80
      let hi2 := if b = 0xF4 then 0x8F else 0xBF
      match r with
      | b2 :: r2 =>
        if lo2 ≤ b2 && b2 ≤ hi2 then
          match r2 with
          | b3 :: r3 =>
            if contOk b3 then
              match r3 with
              | b4 :: r4 =>
                if contOk b4 then
                  Char.ofNat ((b - 0xF0) * 262144 + (b2 - 0x80) * 4096 +
                    (b3 - 0x80) * 64 + (b4 - 0x80)) :: utf8Lossy r4
                else replChar :: utf8Lossy (b4 :: r4)
              | [] => [replChar]
            else replChar :: utf8Lossy (b3 :: r3)
          | [] => [replChar]
        else replChar :: utf8Lossy (b2 :: r2)
      | [] => [replChar]
    else replChar :: utf8Lossy r

/-- The byte-level aggregator run: each network chunk is decoded separately
with `from_utf8_lossy` and fed to the character-level aggregator, exactly as
lines 369-372 of `ai_client.rs` do. -/
def runByteChunks (parse : ParseFn) (bchunks : List (List Nat)) : AggRes :=
  runChunks parse (bchunks.map utf8Lossy)

/-! ## Fenced-code extraction (`ai_client.rs::extract_bsl_code`, lines 489-517) -/

/-- Unicode `White_Space`, the set trimmed by Rust `str::trim`. -/
def rustIsWs (c : Char) : Bool :=
  c = ' ' || c = '\t' || c = '\n' || c = '\r' || c.toNat = 0x0B || c.toNat = 0x0C ||
  c.toNat = 0x85 || c.toNat = 0xA0 || c.toNat = 0x1680 ||
  (0x2000 ≤ c.toNat && c.toNat ≤ 0x200A) || c.toNat = 0x2028 || c.toNat = 0x2029 ||
  c.toNat = 0x202F || c.toNat = 0x205F || c.toNat = 0x3000

/-- Model of Rust `str::trim`. -/
def trimRust (s : List Char) : List Char :=
  ((s.dropWhile rustIsWs).reverse.dropWhile rustIsWs).reverse

def bslOpenMark : List Char := "```bsl".toList

def onecOpenMark : List Char := "```1c".toList

def fenceMark : List Char := "```".toList

/-- Fuelled version of one `while let Some(start) = text[start_pos..].find(tag)`
pass of `extract_bsl_code`; the wrapper passes `s.length`, which dominates the
iteration count because every iteration consumes at least the opening tag and
closing fence. -/
def extractFencedF (marker : List Char) : Nat → List Char → List (List Char)
  | 0, _ => []
  | fuel + 1, s =>
    match findSub marker s with
    | none => []
    | some i =>
      let after := s.drop (i + marker.length)
      match findSub fenceMark after with
      | none => []
      | some j => trimRust (after.take j) :: extractFencedF marker fuel (after.drop (j + 3))

def extractFenced (marker : List Char) (s : List Char) : List (List Char) :=
  extractFencedF marker s.length s

/-- Model of `ai_client.rs::extract_bsl_code`: one pass collecting ```bsl
blocks from the whole text, then a second pass collecting ```1c blocks from
the whole text. -/
def extract_bsl_code (text : List Char) : List (List Char) :=
  extractFenced bslOpenMark text ++ extractFenced onecOpenMark text

/-! ## Diagnostics request (`bsl_client.rs::analyze_code`, lines 469-624)

The WebSocket traffic is modelled explicitly: `pushEvents` lists what arrives
on the socket before the 5-second wait elapses (reaching the end of the list
models the timeout firing), and the output records every LSP message the
function sends, so that the `didOpen`/`didClose` discipline is provable.
`send_notification` transport failures are not modelled (every listed exit
path of the claim set is reachable without them). -/

structure PosM where
  line : Nat
  character : Nat
deriving DecidableEq

structure RangeM where
  start : PosM
  stop : PosM
deriving DecidableEq

/-- Model of `bsl_client.rs::Diagnostic`. -/
structure DiagnosticM where
  range : RangeM
  severity : Option Int
  message : List Char
  source : Option (List Char)
deriving DecidableEq

/-- LSP messages sent by `analyze_code` (and its server-request handler). -/
inductive SentM where
  | didOpen (uri : List Char)
  | didClose (uri : List Char)
  | serverResponse (id : Int)
deriving DecidableEq

/-- Incoming socket events during the publish-diagnostics wait loop. -/
inductive PushMsg where
  | serverRequest (id : Int) (method : List Char)
  | publish (uri : List Char) (diags : List DiagnosticM)
  | logMessage (msg : List Char)
  | otherText
  | unparseable
  | otherFrame
  | transportErr (e : List Char)
  | connClosed
deriving DecidableEq

/-- Outcome of the pull-model `textDocument/diagnostic` request: the parsed
`items` array, or a response without a usable `items` field. -/
inductive PullResM where
  | items (ds : List DiagnosticM)
  | noItems
deriving DecidableEq

structure AnalyzeEnv where
  supportsPull : Bool
  pullResult : Except (List Char) PullResM
  pushEvents : List PushMsg

inductive AnaRes where
  | ok (ds : List DiagnosticM)
  | err (e : List Char)
deriving DecidableEq

structure AnalyzeOut where
  result : AnaRes
  sent : List SentM
deriving DecidableEq

/-- Boolean suffix test (Rust `str::ends_with`). -/
def isSufOf (suf s : List Char) : Bool := isPreOf suf.reverse s.reverse

/-- Rust `uri.split('/').last().unwrap_or(uri)`. -/
def lastSlashPiece (uri : List Char) : List Char :=
  ((splitOnChar '/' uri).getLast?).getD uri

/-- The URI-match check of the publish listener:
`diag_uri == uri || diag_uri.ends_with(filename)`. -/
def uriMatches (diagUri uri : List Char) : Bool :=
  diagUri = uri || isSufOf (lastSlashPiece uri) diagUri

/-- The publish-notification wait loop (`tokio::select!` over socket messages
and the 5s sleep): consumes events in arrival order; a matching publish closes
the document and returns its diagnostics; a transport error or closed
connection returns an error without closing; reaching the end of the event
list models the timeout branch, which closes the document and returns `Ok []`. -/
def analyzePush (uri : List Char) : List PushMsg → List SentM → AnaRes × List SentM
  | [], sent => (.ok [], sent ++ [SentM.didClose uri])
  | e :: es, sent =>
    match e with
    | .serverRequest rid _ => analyzePush uri es (sent ++ [SentM.serverResponse rid])
    | .publish u ds =>
      if uriMatches u uri then (.ok ds, sent ++ [SentM.didClose uri])
      else analyzePush uri es sent
    | .transportErr er => (.err er, sent)
    | .connClosed => (.err ("Connection closed".toList), sent)
    | .logMessage _ => analyzePush uri es sent
    | .otherText => analyzePush uri es sent
    | .unparseable => analyzePush uri es sent
    | .otherFrame => analyzePush uri es sent

/-- Model of `bsl_client.rs::analyze_code`: `didOpen`, then the pull strategy
when the capability is negotiated (an error of the pull request propagates via
`?` before any `didClose`), then the publish-notification fallback. -/
def analyze_code (env : AnalyzeEnv) (uri : List Char) : AnalyzeOut :=
  let sent0 := [SentM.didOpen uri]
  if env.supportsPull then
    match env.pullResult with
    | .error e => { result := .err e, sent := sent0 }
    | .ok pv =>
      let sent1 := sent0 ++ [SentM.didClose uri]
      match pv with
      | .items ds => { result := .ok ds, sent := sent1 }
      | .noItems =>
        let r := analyzePush uri env.pushEvents sent1
        { result := r.1, sent := r.2 }
  else
    let r := analyzePush uri env.pushEvents sent0
    { result := r.1, sent := r.2 }

/-! ## The orchestrator loop (`commands.rs::stream_chat`, lines 228-472)

The model abstracts the collaborators behind `OrchEnv`: the k-th model
dispatch's outcome, the approval signal per round, the tool-invocation result
text per call, the per-block `analyze_code` outcome, and the 30-second
validation timeout.  The output records the final conversation, the loop-level
`chat-chunk` emissions (the visible transcript additions made by the loop
itself), the emitted `bsl-validation-result` payloads, and the number of model
dispatches. -/

/-- Model of `commands.rs`/`ai_client.rs` `ApiMessage`. -/
structure ApiMsgM where
  role : List Char
  content : Option (List Char)
  tool_calls : Option (List ToolCallM)
  tool_call_id : Option (List Char)
  name : Option (List Char)
deriving DecidableEq

/-- Model of `commands.rs::BSLDiagnostic` (the UI payload). -/
structure UiDiagM where
  line : Nat
  character : Nat
  message : List Char
  severity : List Char
deriving DecidableEq

structure OrchEnv where
  responses : Nat → Except (List Char) ApiMsgM
  approvals : Nat → Bool
  toolResults : Nat → Nat → List Char
  analyzeOutcome : Nat → Nat → List Char → Option (List DiagnosticM)
  validationTimesOut : Nat → Bool

structure OrchOut where
  messages : List ApiMsgM
  chunks : List (List Char)
  validations : List (List UiDiagM)
  dispatches : Nat
  failed : Option (List Char)
deriving DecidableEq

def maxIterations : Nat := 7

def limitNotice : List Char :=
  "\n\n**[Система] Достигнут лимит итераций диалога (7).** Пожалуйста, уточните запрос или продолжите в новом сообщении.".toList

/-- The synthetic tool-result message pushed for each call of a rejected round. -/
def rejectedToolMsg (tc : ToolCallM) : ApiMsgM :=
  { role := "tool".toList, content := some ("Error: Action rejected by user".toList),
    tool_calls := none, tool_call_id := some tc.id, name := some tc.name }

/-- The tool-result message pushed after invoking one approved call. -/
def toolResultMsg (txt : List Char) (tc : ToolCallM) : ApiMsgM :=
  { role := "tool".toList, content := some txt,
    tool_calls := none, tool_call_id := some tc.id, name := some tc.name }

/-- ASCII and Cyrillic lowercasing (the alphabets reached by the messages the
filter below inspects), modelling Rust `str::to_lowercase`. -/
def lowerRust (c : Char) : Char :=
  if 'A' ≤ c && c ≤ 'Z' then Char.ofNat (c.toNat + 32)
  else if 0x410 ≤ c.toNat && c.toNat ≤ 0x42F then Char.ofNat (c.toNat + 32)
  else if c.toNat = 0x401 then Char.ofNat 0x451
  else c

/-- Rust `str::contains` for a literal pattern. -/
def containsSub (s pat : List Char) : Bool := (findSub pat s).isSome

/-- The stylistic-noise filter of `commands.rs` lines 392-397. -/
def isStylisticMsg (msg : List Char) : Bool :=
  let low := msg.map lowerRust
  containsSub low ("каноническ".toList) || containsSub low ("пробел".toList) ||
    containsSub low ("canonical".toList) || containsSub low ("comments".toList)

/-- The UI payload built from one diagnostic (`commands.rs` lines 400-409). -/
def uiOfDiag (d : DiagnosticM) : UiDiagM :=
  { line := d.range.start.line, character := d.range.start.character, message := d.message,
    severity :=
      if d.severity = some 1 then "error".toList
      else if d.severity = some 2 then "warning".toList
      else "info".toList }

/-- The per-block validation loop (`commands.rs` lines 386-426): stylistic
messages are skipped for the UI payload, and the per-block `Error`-severity
diagnostics (unfiltered) are collected into `all_errors`; a failed
`analyze_code` call is silently skipped. -/
def validateLoop (env : OrchEnv) (k : Nat) :
    Nat → List (List Char) → List (List DiagnosticM) → List UiDiagM →
    List (List DiagnosticM) × List UiDiagM
  | _, [], errsAcc, uiAcc => (errsAcc, uiAcc)
  | j, code :: rest, errsAcc, uiAcc =>
    match env.analyzeOutcome k j code with
    | some ds =>
      let uiAcc2 := uiAcc ++ (ds.filter (fun d => !(isStylisticMsg d.message))).map uiOfDiag
      let errs := ds.filter (fun d => d.severity = some 1)
      let errsAcc2 := if errs = [] then errsAcc else errsAcc ++ [errs]
      validateLoop env k (j + 1) rest errsAcc2 uiAcc2
    | none => validateLoop env k (j + 1) rest errsAcc uiAcc

/-- Fuelled model of the `loop` of `commands.rs::stream_chat` (lines 238-467).
The wrapper passes `maxIterations + 2` fuel; the loop's own guard stops after
`maxIterations` dispatch rounds, so the fuel-exhaustion branch is unreachable.
The auto-fix branch (append a correction request as a user message and loop
back) is present in the source only inside a block comment — lines 446-464 —
so after validating, the loop breaks whether or not `all_errors` is empty. -/
def orchLoopF (env : OrchEnv) :
    Nat → List ApiMsgM → List (List Char) → List (List UiDiagM) → Nat → Nat → OrchOut
  | 0, msgs, chs, vals, disp, _ =>
    { messages := msgs, chunks := chs, validations := vals, dispatches := disp, failed := none }
  | fuel + 1, msgs, chs, vals, disp, iter =>
    let iter2 := iter + 1
    if iter2 > maxIterations then
      { messages := msgs, chunks := chs ++ [limitNotice], validations := vals,
        dispatches := disp, failed := none }
    else
      match env.responses disp with
      | .error e =>
        { messages := msgs, chunks := chs, validations := vals,
          dispatches := disp + 1, failed := some e }
      | .ok am =>
        let msgs2 := msgs ++ [am]
        match am.tool_calls with
        | some tcs =>
          if env.approvals disp then
            let msgs3 := msgs2 ++ tcs.enum.map (fun pr => toolResultMsg (env.toolResults disp pr.1) pr.2)
            orchLoopF env fuel msgs3 chs vals (disp + 1) iter2
          else
            let msgs3 := msgs2 ++ tcs.map rejectedToolMsg
            orchLoopF env fuel msgs3 chs vals (disp + 1) iter2
        | none =>
          let fullText := am.content.getD []
          let blocks := extract_bsl_code fullText
          if blocks = [] then
            { messages := msgs2, chunks := chs, validations := vals,
              dispatches := disp + 1, failed := none }
          else if env.validationTimesOut disp then
            { messages := msgs2, chunks := chs, validations := vals,
              dispatches := disp + 1, failed := none }
          else
            let vr := validateLoop env disp 0 blocks [] []
            let vals2 := vals ++ [vr.2]
            if vr.1 = [] then
              { messages := msgs2, chunks := chs, validations := vals2,
                dispatches := disp + 1, failed := none }
            else
              { messages := msgs2, chunks := chs, validations := vals2,
                dispatches := disp + 1, failed := none }

/-- The whole orchestrator run on an initial conversation. -/
def stream_chat_loop (env : OrchEnv) (initial : List ApiMsgM) : OrchOut :=
  orchLoopF env (maxIterations + 2) initial [] [] 0 0

/-! ## The patch reconciler, modelled from the specification

Modelled from the spec: the repository contains no reconciler ("smart merge")
implementation under `src/`; sections 4.3 and 8 of the specification describe
one, so the merge policy below is built from the specification's words alone
(action detection over the first 15 lines, the four-step merge policy, the
half-length merge-safety abort, line-ending detection, and append-at-end
additions).  Constants the spec leaves open (the marker comment syntax, the
"non-trivially sized" threshold) are fixed representatively. -/

structure SymbolM where
  name : List Char
  startLine : Nat
  endLine : Nat
deriving DecidableEq

inductive PatchActionM where
  | replaceSym (target : List Char)
  | add
  | fullModule
deriving DecidableEq

/-- Modelled from the spec: one in-band marker comment line, declaring
`Replace <name>`, `Add`, or `FullModule`. -/
def parseActionLine (l : List Char) : Option PatchActionM :=
  let t := trimRust l
  if isPreOf ("// AI-ACTION: Replace ".toList) t then
    some (.replaceSym (trimRust (t.drop 22)))
  else if t = "// AI-ACTION: Add".toList then some .add
  else if t = "// AI-ACTION: FullModule".toList then some .fullModule
  else none

/-- Modelled from the spec: scan the given (first ~15) lines for a marker. -/
def detectAction : List (List Char) → Option PatchActionM
  | [] => none
  | l :: ls =>
    match parseActionLine l with
    | some a => some a
    | none => detectAction ls

/-- Modelled from the spec: the original document's line-ending style,
detected once from the original text. -/
def detectEol (original : List Char) : List Char :=
  if containsSub original ("\r\n".toList) then "\r\n".toList else "\n".toList

def joinWith (eol : List Char) (ls : List (List Char)) : List Char :=
  (ls.intersperse eol).flatten

/-- Modelled from the spec: the lines `[a, b)` of a text. -/
def getLinesRange (text : List Char) (a b : Nat) : List (List Char) :=
  ((linesOf text).drop a).take (b - a)

/-- Case-insensitive symbol lookup by name. -/
def lookupSym (syms : List SymbolM) (nm : List Char) : Option SymbolM :=
  syms.find? (fun s => s.name.map lowerRust = nm.map lowerRust)

/-- Modelled from the spec (section 4.3 merge policy): `reconcile(original,
ai, declared_target)` with the two symbol tables supplied by the Symbol
Service.  Step 1: `FullModule` returns the snippet verbatim.  Step 2: a target
resolved in both tables replaces the original symbol's line range with the AI
symbol's line range, aborting back to the original if the merged text
collapses to under half the original's length while the original is
non-trivially sized (> 100 chars).  Step 3: `Add` (or no declared target)
appends AI symbols absent from the original, blank-line separated, using the
original's line endings.  Step 4: fallback full-module replacement when the AI
snippet has more than half as many symbols and is not dramatically shorter;
otherwise no change. -/
def reconcile (original ai : List Char) (declared : Option (List Char))
    (origSyms aiSyms : List SymbolM) : List Char :=
  let fallbackStep4 : List Char :=
    if 2 * aiSyms.length > origSyms.length && 2 * ai.length ≥ original.length then ai
    else original
  let addStep : List Char :=
    let newSyms := aiSyms.filter (fun a => (lookupSym origSyms a.name).isNone)
    if newSyms = [] then original
    else
      let eol := detectEol original
      let blocks := newSyms.map (fun a => joinWith eol (getLinesRange ai a.startLine a.endLine))
      original ++ blocks.foldl (fun acc b => acc ++ eol ++ eol ++ b) []
  match (detectAction (List.take 15 (linesOf ai))).getD
      (match declared with | some t => .replaceSym t | none => .add) with
  | .fullModule => ai
  | .add => addStep
  | .replaceSym t =>
    match lookupSym origSyms t, lookupSym aiSyms t with
    | some os, some asy =>
      let eol := detectEol original
      let origLines := linesOf original
      let newBody := getLinesRange ai asy.startLine asy.endLine
      let merged :=
        joinWith eol (origLines.take os.startLine ++ newBody ++ origLines.drop os.endLine)
      if 2 * merged.length < original.length && original.length > 100 then original
      else merged
    | _, _ => fallbackStep4

/-! ## Concrete materials used by witnesses and counterexamples -/

/-- The backtick character (written by code point to keep it out of the code
text). -/
def btick : Char := Char.ofNat 96

/-- A sequence of content fragments through the `<thinking>` sub-machine,
starting from the `Visible` state with empty accumulators — the per-turn view
of the content channel in isolation. -/
def procFrags (frags : List (List Char)) : Bool × List Char × List Char :=
  frags.foldl (fun acc cur => processContent acc.1 acc.2.1 acc.2.2 cur) (false, [], [])

/-- The intact data-line payload of the byte-level counterexample (one SSE
delta whose content is the two-byte UTF-8 character `д`). -/
def jsonIntactLine : List Char :=
  "\x7b\"choices\":[\x7b\"delta\":\x7b\"content\":\"д\"\x7d\x7d]\x7d".toList

/-- The same payload after the two bytes of `д` have been lossily decoded in
separate chunks: two U+FFFD replacement characters. -/
def jsonCorruptLine : List Char :=
  "\x7b\"choices\":[\x7b\"delta\":\x7b\"content\":\"��\"\x7d\x7d]\x7d".toList

/-- A concrete payload parser agreeing with `serde_json::from_str::<StreamChunk>`
on the two payloads the byte-level counterexample exercises (both are valid
JSON of the `StreamChunk` shape; every other input is rejected). -/
def parseC7 : ParseFn := fun data =>
  if data = jsonIntactLine then
    some { choices := [{ delta := { content := some ("д".toList), tool_calls := none } }] }
  else if data = jsonCorruptLine then
    some { choices := [{ delta := { content := some [replChar, replChar], tool_calls := none } }] }
  else none

/-- The UTF-8 bytes of the complete event stream
`data: \x7b"choices":[\x7b"delta":\x7b"content":"д"\x7d\x7d]\x7d\n\n`. -/
def c7AllBytes : List Nat :=
  [100, 97, 116, 97, 58, 32, 123, 34, 99, 104, 111, 105, 99, 101, 115, 34, 58, 91, 123, 34,
   100, 101, 108, 116, 97, 34, 58, 123, 34, 99, 111, 110, 116, 101, 110, 116, 34, 58, 34, 208,
   180, 34, 125, 125, 93, 125, 10, 10]

/-- The first chunk of the splitting partition: everything up to and including
the lead byte `0xD0` of `д`. -/
def c7Bytes1 : List Nat :=
  [100, 97, 116, 97, 58, 32, 123, 34, 99, 104, 111, 105, 99, 101, 115, 34, 58, 91, 123, 34,
   100, 101, 108, 116, 97, 34, 58, 123, 34, 99, 111, 110, 116, 101, 110, 116, 34, 58, 34, 208]

/-- The second chunk: the continuation byte `0xB4` of `д` and the rest. -/
def c7Bytes2 : List Nat :=
  [180, 34, 125, 125, 93, 125, 10, 10]

/-- The assistant reply of the C1 counterexample: no tool calls, one fenced
BSL block. -/
def asstC1 : ApiMsgM :=
  { role := "assistant".toList,
    content := some ("Вот код:\n```bsl\nА = 1\n```".toList),
    tool_calls := none, tool_call_id := none, name := none }

/-- An `Error`-severity, non-stylistic diagnostic reported for that block. -/
def diagC1 : DiagnosticM :=
  { range := { start := { line := 0, character := 0 }, stop := { line := 0, character := 5 } },
    severity := some 1, message := "Неизвестный символ".toList, source := none }

/-- The C1 counterexample environment: the first dispatch returns `asstC1`,
and analysing its single block yields the error diagnostic `diagC1`. -/
def envC1 : OrchEnv :=
  { responses := fun k => if k = 0 then .ok asstC1 else .error ("unused".toList),
    approvals := fun _ => false,
    toolResults := fun _ _ => [],
    analyzeOutcome := fun k j _ => if k = 0 && j = 0 then some [diagC1] else none,
    validationTimesOut := fun _ => false }

/-- An assistant reply carrying (empty) tool calls, driving one tool round. -/
def asstC6 : ApiMsgM :=
  { role := "assistant".toList, content := none,
    tool_calls := some [], tool_call_id := none, name := none }

/-- The C6 witness environment: every dispatch returns a tool-call turn, so
the loop runs tool rounds until the iteration ceiling trips. -/
def envC6 : OrchEnv :=
  { responses := fun _ => .ok asstC6,
    approvals := fun _ => false,
    toolResults := fun _ _ => [],
    analyzeOutcome := fun _ _ _ => none,
    validationTimesOut := fun _ => false }

def uriMain : List Char := "file:///temp.bsl".toList

/-- The C2 witness environment: push strategy, and only benign traffic (a log
message, a publish for a different URI, a server-initiated request) before the
wait window elapses. -/
def envC2 : AnalyzeEnv :=
  { supportsPull := false,
    pullResult := .error ("unused".toList),
    pushEvents :=
      [.logMessage ("hello".toList),
       .publish ("file:///other.bsl".toList) [diagC1],
       .serverRequest 3 ("workspace/configuration".toList),
       .otherText, .unparseable, .otherFrame] }

/-- The C3 counterexample environment: the socket reports a transport error
before any publish notification. -/
def envC3 : AnalyzeEnv :=
  { supportsPull := false,
    pullResult := .error ("unused".toList),
    pushEvents := [.transportErr ("io error".toList)] }

/-- The C3 witness environment: pull diagnostics succeed. -/
def envC3w : AnalyzeEnv :=
  { supportsPull := true,
    pullResult := .ok (.items [diagC1]),
    pushEvents := [] }

/-- The sentinel event line `data: [DONE]`. -/
def sentLine : List Char := "data: [DONE]".toList

/-- An incoming socket event that neither matches the awaited URI nor ends the
wait loop: the wait window can elapse past any number of these. -/
def benignEvt (uri : List Char) : PushMsg → Bool
  | .publish u _ => !(uriMatches u uri)
  | .transportErr _ => false
  | .connClosed => false
  | _ => true

/-- Whether the k-th model dispatch produces a successful turn carrying tool
calls (driving one tool round of the orchestrator loop). -/
def okToolRound (env : OrchEnv) (k : Nat) : Bool :=
  match env.responses k with
  | .ok am => am.tool_calls.isSome
  | .error _ => false

/-! # Theorems

## Equations of the content sub-machine -/

theorem procContentF_nilcur (fuel : Nat) (th : Bool) (vis tk : List Char) :
    procContentF fuel th vis tk [] = (th, vis, tk) := by
  cases fuel <;> simp [procContentF]

theorem procContentF_noStart {cur : List Char} {fuel : Nat} (vis tk : List Char)
    (h : findSub thinkStartMark cur = none) (hf : cur.length ≤ fuel) :
    procContentF fuel false vis tk cur = (false, vis ++ cur, tk) := by
  cases cur with
  | nil => simp [procContentF_nilcur]
  | cons c t =>
    cases fuel with
    | zero => simp at hf
    | succ f => simp [procContentF, h]

theorem procContentF_start {cur : List Char} {fuel p : Nat} (vis tk : List Char)
    (h : findSub thinkStartMark cur = some p) (hf : cur.length ≤ fuel) :
    procContentF fuel false vis tk cur =
      procContentF (fuel - 1) true (vis ++ cur.take p) tk (cur.drop (p + 10)) := by
  have hle := findSub_le h
  have h10 : thinkStartMark.length = 10 := by decide
  rw [h10] at hle
  cases cur with
  | nil => simp at hle
  | cons c t =>
    cases fuel with
    | zero => simp at hf
    | succ f => simp [procContentF, h]

theorem procContentF_noEnd {cur : List Char} {fuel : Nat} (vis tk : List Char)
    (h : findSub thinkEndMark cur = none) (hf : cur.length ≤ fuel) :
    procContentF fuel true vis tk cur = (true, vis, tk ++ cur) := by
  cases cur with
  | nil => simp [procContentF_nilcur]
  | cons c t =>
    cases fuel with
    | zero => simp at hf
    | succ f => simp [procContentF, h]

theorem procContentF_end {cur : List Char} {fuel p : Nat} (vis tk : List Char)
    (h : findSub thinkEndMark cur = some p) (hf : cur.length ≤ fuel) :
    procContentF fuel true vis tk cur =
      procContentF (fuel - 1) false vis (tk ++ cur.take p) (cur.drop (p + 11)) := by
  have hle := findSub_le h
  have h11 : thinkEndMark.length = 11 := by decide
  rw [h11] at hle
  cases cur with
  | nil => simp at hle
  | cons c t =>
    cases fuel with
    | zero => simp at hf
    | succ f => simp [procContentF, h]

/-! ## C4 — thinking/visible routing across content fragments -/

/-- C4, counterexample: the claim asserts the routing is correct even when a
start or end marker spans multiple content fragments.  Splitting the stream
`<thinking>X</thinking>` into the fragments `<thin` and `king>X</thinking>`
routes nothing to the thinking channel and the whole text — including `X`,
which lies between matched markers — to the visible channel, unlike the
unsplit stream, which routes `X` to the thinking channel. -/
theorem c4_counterexample :
    (procFrags [("<thin".toList), ("king>X</thinking>".toList)]).2.2 = [] ∧
    (procFrags [("<thin".toList) ++ ("king>X</thinking>".toList)]).2.2 = "X".toList ∧
    procFrags [("<thin".toList), ("king>X</thinking>".toList)] ≠
      procFrags [("<thin".toList) ++ ("king>X</thinking>".toList)] := by
  decide

/-- C4, amended: for content fragments in which each marker occurrence lies
within a single fragment, the two-state sub-machine routes text before the
start marker to the visible channel and text between the matched markers to
the thinking channel, with the Visible/Thinking state persisting across
fragments (here the thinking section itself spans the two fragments); a
marker split across fragments is not reassembled.  The `'<' ∉ _` hypotheses
state that the surrounding texts contain no marker fragments at all. -/
theorem c4_thinking_routing (a b c d : List Char)
    (ha : '<' ∉ a) (hb : '<' ∉ b) (hc2 : '<' ∉ c) (hd : '<' ∉ d) :
    procFrags [a ++ thinkStartMark ++ b, c ++ thinkEndMark ++ d] =
      (false, a ++ d, b ++ c) := by
  have hS : thinkStartMark = '<' :: ("thinking>".toList) := by decide
  have hE : thinkEndMark = '<' :: ("/thinking>".toList) := by decide
  have h10 : thinkStartMark.length = 10 := by decide
  have h11 : thinkEndMark.length = 11 := by decide
  have hf1 : findSub thinkStartMark (a ++ thinkStartMark ++ b) = some a.length := by
    rw [hS]
    exact findSub_boundary _ b ha
  have hfb : findSub thinkEndMark b = none := by
    rw [hE]
    exact findSub_none_of_head_notMem hb
  have hf2 : findSub thinkEndMark (c ++ thinkEndMark ++ d) = some c.length := by
    rw [hE]
    exact findSub_boundary _ d hc2
  have hfd : findSub thinkStartMark d = none := by
    rw [hS]
    exact findSub_none_of_head_notMem hd
  have htake1 : (a ++ thinkStartMark ++ b).take a.length = a := by
    rw [List.take_append_of_le_length (by simp)]
    exact List.take_left a thinkStartMark
  have hdrop1 : (a ++ thinkStartMark ++ b).drop (a.length + 10) = b := by
    have hlen : (a ++ thinkStartMark).length = a.length + 10 := by simp [h10]
    rw [← hlen]
    exact List.drop_left _ _
  have hL1 : (a ++ thinkStartMark ++ b).length = a.length + 10 + b.length := by
    simp [h10]
    omega
  have htake2 : (c ++ thinkEndMark ++ d).take c.length = c := by
    rw [List.take_append_of_le_length (by simp)]
    exact List.take_left c thinkEndMark
  have hdrop2 : (c ++ thinkEndMark ++ d).drop (c.length + 11) = d := by
    have hlen : (c ++ thinkEndMark).length = c.length + 11 := by simp [h11]
    rw [← hlen]
    exact List.drop_left _ _
  have hL2 : (c ++ thinkEndMark ++ d).length = c.length + 11 + d.length := by
    simp [h11]
    omega
  have e1 : processContent false [] [] (a ++ thinkStartMark ++ b) = (true, a, b) := by
    unfold processContent
    rw [procContentF_start [] [] hf1 (le_refl _)]
    rw [htake1, hdrop1, List.nil_append]
    rw [procContentF_noEnd a [] hfb (by rw [hL1]; omega)]
    simp
  have e2 : processContent true a b (c ++ thinkEndMark ++ d) = (false, a ++ d, b ++ c) := by
    unfold processContent
    rw [procContentF_end a b hf2 (le_refl _)]
    rw [htake2, hdrop2]
    rw [procContentF_noStart a (b ++ c) hfd (by rw [hL2]; omega)]
  simp only [procFrags, List.foldl_cons, List.foldl_nil]
  rw [e1]
  exact e2

/-! ## Equations of the event-extraction loop -/

theorem drainF_delim_none {parse : ParseFn} {buf : List Char} {core : CoreSt} {fuel : Nat}
    (h : findSub eventDelim buf = none) :
    drainF parse fuel buf core = .running buf core := by
  cases fuel <;> simp [drainF, h]

theorem drainF_step {parse : ParseFn} {buf : List Char} {core : CoreSt} {fuel p : Nat}
    (h : findSub eventDelim buf = some p) (hf : buf.length ≤ fuel) :
    drainF parse fuel buf core =
      match procLines parse core (linesOf (buf.take p)) with
      | .done t => .done t
      | .running c2 => drainF parse (fuel - 1) (buf.drop (p + 2)) c2 := by
  have hle := findSub_le h
  have h2 : eventDelim.length = 2 := by decide
  rw [h2] at hle
  cases buf with
  | nil => simp at hle
  | cons x xs =>
    cases fuel with
    | zero => simp at hf
    | succ f => simp [drainF, h]

theorem foldl_feed_done (parse : ParseFn) (t : TurnM) (junk : List (List Char)) :
    List.foldl (feedChunk parse) (.done t) junk = .done t := by
  induction junk with
  | nil => rfl
  | cons c cs ih => simpa [feedChunk] using ih

/-! ## C5 — the `[DONE]` sentinel finalizes the turn immediately -/

/-- C5: from any accumulated state (with the buffer drained), a chunk that
starts with a complete `data: [DONE]` event finalizes the turn with exactly
the accumulated visible text, thinking text and tool calls; the bytes after
the sentinel in the same chunk (`trail`) and all later chunks (`junk`) are
arbitrary and contribute nothing. -/
theorem c5_sentinel_finalizes (parse : ParseFn) (core : CoreSt) (trail : List Char)
    (junk : List (List Char)) :
    List.foldl (feedChunk parse) (AggRes.running [] core)
      ((sentLine ++ eventDelim ++ trail) :: junk) = .done (coreTurn core) := by
  have hD : eventDelim = '\n' :: ("\n".toList) := by decide
  have h12 : sentLine.length = 12 := by decide
  have hline : findSub eventDelim (sentLine ++ eventDelim ++ trail) = some 12 := by
    rw [hD, ← h12]
    exact findSub_boundary _ trail (by decide)
  simp only [List.foldl_cons]
  have hpl : procLine parse core sentLine = LineRes.done (coreTurn core) := by
    have h1 : isPreOf dataMark sentLine = true := by decide
    have h2 : sentLine.drop 6 = doneMark := by decide
    unfold procLine
    rw [h1, h2]
    simp
  have hfeed : feedChunk parse (AggRes.running [] core)
      (sentLine ++ eventDelim ++ trail) = .done (coreTurn core) := by
    show drain parse ([] ++ (sentLine ++ eventDelim ++ trail)) core = .done (coreTurn core)
    rw [List.nil_append]
    unfold drain
    rw [drainF_step hline (le_refl _)]
    have htake : (sentLine ++ eventDelim ++ trail).take 12 = sentLine := by
      rw [List.take_append_of_le_length (by decide)]
      decide
    rw [htake]
    have hlines : linesOf sentLine = [sentLine] := by decide
    rw [hlines]
    have hproc : procLines parse core [sentLine] = LineRes.done (coreTurn core) := by
      simp [procLines, hpl]
    rw [hproc]
  rw [hfeed]
  exact foldl_feed_done parse _ junk

/-! ## C7 — chunk-boundary invariance of the aggregator -/

theorem drainF_eq_drain (parse : ParseFn) :
    ∀ n fuel buf core, buf.length = n → n ≤ fuel →
      drainF parse fuel buf core = drain parse buf core := by
  intro n
  induction n using Nat.strong_induction_on with
  | _ n ih =>
    intro fuel buf core hlen hf
    cases hfind : findSub eventDelim buf with
    | none => rw [drainF_delim_none hfind, drain, drainF_delim_none hfind]
    | some p =>
      have hle := findSub_le hfind
      have h2 : eventDelim.length = 2 := by decide
      rw [h2] at hle
      rw [drainF_step hfind (by omega), drain, drainF_step hfind (le_refl _)]
      cases hpl : procLines parse core (linesOf (buf.take p)) with
      | done t => rfl
      | running c2 =>
        simp only
        have hrl : (buf.drop (p + 2)).length = buf.length - (p + 2) := by simp
        rw [ih (buf.length - (p + 2)) (by omega) (fuel - 1) _ c2 hrl (by omega),
          ih (buf.length - (p + 2)) (by omega) (buf.length - 1) _ c2 hrl (by omega)]

theorem drain_append (parse : ParseFn) :
    ∀ n buf core extra, buf.length = n →
      feedChunk parse (drain parse buf core) extra = drain parse (buf ++ extra) core := by
  intro n
  induction n using Nat.strong_induction_on with
  | _ n ih =>
    intro buf core extra hlen
    cases hfind : findSub eventDelim buf with
    | none =>
      rw [drain, drainF_delim_none hfind]
      rfl
    | some p =>
      have hle := findSub_le hfind
      have h2 : eventDelim.length = 2 := by decide
      rw [h2] at hle
      have hmono := findSub_append_mono extra hfind
      have htk : (buf ++ extra).take p = buf.take p :=
        List.take_append_of_le_length (by omega)
      have hdr : (buf ++ extra).drop (p + 2) = buf.drop (p + 2) ++ extra :=
        List.drop_append_of_le_length (by omega)
      rw [drain, drainF_step hfind (le_refl _), drain, drainF_step hmono (le_refl _),
        htk]
      cases hpl : procLines parse core (linesOf (buf.take p)) with
      | done t => rfl
      | running c2 =>
        simp only
        rw [drainF_eq_drain parse (buf.drop (p + 2)).length (buf.length - 1)
          _ c2 rfl (by simp; omega)]
        rw [hdr]
        rw [drainF_eq_drain parse (buf.drop (p + 2) ++ extra).length ((buf ++ extra).length - 1)
          _ c2 rfl (by simp; omega)]
        exact ih (buf.drop (p + 2)).length (by simp; omega) _ c2 extra rfl

theorem drain_running_residual (parse : ParseFn) :
    ∀ n buf core b2 c2, buf.length = n →
      drain parse buf core = .running b2 c2 → findSub eventDelim b2 = none := by
  intro n
  induction n using Nat.strong_induction_on with
  | _ n ih =>
    intro buf core b2 c2 hlen hrun
    cases hfind : findSub eventDelim buf with
    | none =>
      rw [drain, drainF_delim_none hfind] at hrun
      cases hrun
      exact hfind
    | some p =>
      have hle := findSub_le hfind
      have h2 : eventDelim.length = 2 := by decide
      rw [h2] at hle
      rw [drain, drainF_step hfind (le_refl _)] at hrun
      cases hpl : procLines parse core (linesOf (buf.take p)) with
      | done t => rw [hpl] at hrun; cases hrun
      | running c3 =>
        rw [hpl] at hrun
        simp only at hrun
        rw [drainF_eq_drain parse (buf.drop (p + 2)).length (buf.length - 1)
          _ c3 rfl (by simp; omega)] at hrun
        exact ih (buf.drop (p + 2)).length (by simp; omega) _ c3 b2 c2 rfl hrun

theorem foldl_feed_flatten (parse : ParseFn) :
    ∀ (cs : List (List Char)) (buf : List Char) (core : CoreSt),
      findSub eventDelim buf = none →
      List.foldl (feedChunk parse) (.running buf core) cs =
        drain parse (buf ++ cs.flatten) core := by
  intro cs
  induction cs with
  | nil =>
    intro buf core hnd
    simp only [List.foldl_nil, List.flatten_nil, List.append_nil]
    rw [drain, drainF_delim_none hnd]
  | cons c cs ih =>
    intro buf core hnd
    simp only [List.foldl_cons, List.flatten_cons]
    have hstep : feedChunk parse (AggRes.running buf core) c = drain parse (buf ++ c) core := rfl
    rw [hstep]
    cases hd : drain parse (buf ++ c) core with
    | done t =>
      rw [foldl_feed_done]
      have hda := drain_append parse (buf ++ c).length (buf ++ c) core cs.flatten rfl
      rw [hd] at hda
      rw [← List.append_assoc, ← hda]
      rfl
    | running b2 c2 =>
      have hres := drain_running_residual parse (buf ++ c).length (buf ++ c) core b2 c2 rfl hd
      rw [ih b2 c2 hres]
      have hda := drain_append parse (buf ++ c).length (buf ++ c) core cs.flatten rfl
      rw [hd] at hda
      rw [← List.append_assoc, ← hda]
      rfl

/-- C7, amended: at the character level — every partition whose chunk
boundaries respect UTF-8 character boundaries — feeding the chunks one by one
yields exactly the same aggregator outcome (the same final `AssistantTurn`,
and the same residual state) as feeding the whole stream as one chunk; this
covers in particular splits falling inside the `\n\n` event delimiter.  The
byte-level counterexample below shows why the restriction to character
boundaries is necessary. -/
theorem c7_chunking_invariant (parse : ParseFn) (chunks : List (List Char)) :
    runChunks parse chunks = runChunks parse [chunks.flatten] := by
  unfold runChunks
  rw [foldl_feed_flatten parse chunks [] initCore (by decide)]
  simp only [List.foldl_cons, List.foldl_nil]
  have : feedChunk parse (AggRes.running [] initCore) chunks.flatten =
      drain parse ([] ++ chunks.flatten) initCore := rfl
  rw [this]

/-- C7, counterexample: the claim as stated quantifies over every partition of
the stream's bytes.  The source decodes each network chunk separately with
`String::from_utf8_lossy`, so a partition that splits the two UTF-8 bytes of
`д` (inside a delta's content) across chunks turns them into two U+FFFD
replacement characters, and the final `AssistantTurn` differs from feeding the
stream whole — even though the two chunks concatenate to exactly the same
byte stream. -/
theorem c7_counterexample :
    c7Bytes1 ++ c7Bytes2 = c7AllBytes ∧
    finishTurn (runByteChunks parseC7 [c7Bytes1, c7Bytes2]) ≠
      finishTurn (runByteChunks parseC7 [c7AllBytes]) := by
  decide

/-! ## C10 — contiguity of the tool-call accumulator list -/

theorem applyToolDelta_length (tcs : List ToolCallM) (d : TcDeltaM) :
    (applyToolDelta tcs d).length = max tcs.length (d.index.getD 0 + 1) := by
  simp [applyToolDelta]
  omega

theorem applyToolDelta_get_ne {tcs : List ToolCallM} {d : TcDeltaM} {j : Nat}
    (h : d.index.getD 0 ≠ j) :
    (applyToolDelta tcs d)[j]? =
      if j < tcs.length then tcs[j]?
      else if j < max tcs.length (d.index.getD 0 + 1) then some placeholderTc else none := by
  unfold applyToolDelta
  rw [List.getElem?_set_ne h, List.getElem?_append]
  by_cases h1 : j < tcs.length
  · simp [h1]
  · simp only [h1, if_false]
    rw [List.getElem?_replicate]
    by_cases h2 : j < max tcs.length (d.index.getD 0 + 1)
    · rw [if_pos (by omega), if_pos h2]
    · rw [if_neg (by omega), if_neg h2]

theorem applyToolDelta_noIndex (tcs : List ToolCallM) (d : TcDeltaM) (h : d.index = none) :
    applyToolDelta tcs d = applyToolDelta tcs { d with index := some 0 } := by
  rcases d with ⟨idx, did, dfn⟩
  simp only at h
  subst h
  rfl

theorem foldl_applyToolDelta_placeholder :
    ∀ (ds : List TcDeltaM) (acc : List ToolCallM) (j : Nat),
      (∀ d ∈ ds, d.index.getD 0 ≠ j) →
      j < (List.foldl applyToolDelta acc ds).length →
      (List.foldl applyToolDelta acc ds)[j]? =
        if j < acc.length then acc[j]? else some placeholderTc := by
  intro ds
  induction ds with
  | nil =>
    intro acc j _ hj
    simp only [List.foldl_nil] at hj ⊢
    rw [if_pos hj]
  | cons d ds ih =>
    intro acc j hmem hj
    simp only [List.foldl_cons] at hj ⊢
    have hdj : d.index.getD 0 ≠ j := hmem d (by simp)
    have hmem2 : ∀ e ∈ ds, e.index.getD 0 ≠ j := fun e he => hmem e (by simp [he])
    rw [ih (applyToolDelta acc d) j hmem2 hj]
    have hget := @applyToolDelta_get_ne acc d j hdj
    by_cases h1 : j < acc.length
    · have h2 : j < (applyToolDelta acc d).length := by
        rw [applyToolDelta_length]
        omega
      rw [if_pos h2, hget, if_pos h1, if_pos h1]
    · by_cases h2 : j < (applyToolDelta acc d).length
      · rw [if_pos h2, hget, if_neg h1,
          if_pos (by rw [applyToolDelta_length] at h2; exact h2)]
        rw [if_neg h1]
      · rw [if_neg h2, if_neg h1]

/-- C10: the accumulator list stays contiguous — after merging a fragment for
index `i` the list has length `max (old length) (i + 1)`, so accumulators
exist for every index `0..i`; a fragment with no index field is merged exactly
as one with index `0`; and throughout a turn, every position never targeted by
a fragment holds the placeholder entry (empty id, name and arguments, type
`"function"`). -/
theorem c10_tool_call_accumulators :
    (∀ (tcs : List ToolCallM) (d : TcDeltaM),
      (applyToolDelta tcs d).length = max tcs.length (d.index.getD 0 + 1)) ∧
    (∀ (tcs : List ToolCallM) (d : TcDeltaM), d.index = none →
      applyToolDelta tcs d = applyToolDelta tcs { d with index := some 0 }) ∧
    (∀ (ds : List TcDeltaM) (j : Nat),
      (∀ d ∈ ds, d.index.getD 0 ≠ j) →
      j < (List.foldl applyToolDelta ([] : List ToolCallM) ds).length →
      (List.foldl applyToolDelta ([] : List ToolCallM) ds)[j]? = some placeholderTc) := by
  refine ⟨applyToolDelta_length, applyToolDelta_noIndex, fun ds j hmem hj => ?_⟩
  rw [foldl_applyToolDelta_placeholder ds [] j hmem hj]
  simp

/-- C10, witness: a single fragment carrying index 2 creates accumulators 0-2,
and the untouched index 1 holds the placeholder. -/
theorem c10_witness :
    (List.foldl applyToolDelta ([] : List ToolCallM)
      [{ index := some 2, id := some ("call_1".toList), function := none }])[1]? =
      some placeholderTc :=
  c10_tool_call_accumulators.2.2 _ 1 (by decide) (by decide)

/-! ## C2 / C3 — the diagnostics wait loop -/

theorem analyzePush_benign_ok :
    ∀ (evs : List PushMsg) (uri : List Char) (sent : List SentM),
      (∀ e ∈ evs, benignEvt uri e = true) →
      (analyzePush uri evs sent).1 = .ok [] := by
  intro evs
  induction evs with
  | nil => intro uri sent _; rfl
  | cons e es ih =>
    intro uri sent hb
    have he := hb e (by simp)
    have hes : ∀ e2 ∈ es, benignEvt uri e2 = true := fun e2 h2 => hb e2 (by simp [h2])
    cases e with
    | serverRequest rid m => simpa [analyzePush] using ih uri _ hes
    | publish u ds =>
      have hm : uriMatches u uri = false := by simpa [benignEvt] using he
      simpa [analyzePush, hm] using ih uri sent hes
    | transportErr er => simp [benignEvt] at he
    | connClosed => simp [benignEvt] at he
    | logMessage m => simpa [analyzePush] using ih uri sent hes
    | otherText => simpa [analyzePush] using ih uri sent hes
    | unparseable => simpa [analyzePush] using ih uri sent hes
    | otherFrame => simpa [analyzePush] using ih uri sent hes

theorem analyzePush_ok_closes :
    ∀ (evs : List PushMsg) (uri : List Char) (sent : List SentM) (ds : List DiagnosticM),
      (analyzePush uri evs sent).1 = .ok ds →
      SentM.didClose uri ∈ (analyzePush uri evs sent).2 := by
  intro evs
  induction evs with
  | nil => intro uri sent ds _; simp [analyzePush]
  | cons e es ih =>
    intro uri sent ds hok
    cases e with
    | serverRequest rid m =>
      simp only [analyzePush] at hok ⊢
      exact ih uri _ ds hok
    | publish u dgs =>
      by_cases hm : uriMatches u uri
      · simp [analyzePush, hm]
      · simp only [analyzePush, hm] at hok ⊢
        simp only [Bool.false_eq_true, if_false] at hok ⊢
        exact ih uri sent ds hok
    | transportErr er => simp [analyzePush] at hok
    | connClosed => simp [analyzePush] at hok
    | logMessage m =>
      simp only [analyzePush] at hok ⊢
      exact ih uri sent ds hok
    | otherText =>
      simp only [analyzePush] at hok ⊢
      exact ih uri sent ds hok
    | unparseable =>
      simp only [analyzePush] at hok ⊢
      exact ih uri sent ds hok
    | otherFrame =>
      simp only [analyzePush] at hok ⊢
      exact ih uri sent ds hok

/-- C2: a diagnostics request served by the publish-notification strategy
(either because the pull capability is absent, or because the pull response
had no usable `items`) that sees no matching publish notification — only
benign traffic — before the wait window elapses returns an empty diagnostics
list `Ok []`, never an error. -/
theorem c2_diagnostics_timeout (env : AnalyzeEnv) (uri : List Char)
    (hpull : env.supportsPull = false ∨ env.pullResult = .ok .noItems)
    (hb : ∀ e ∈ env.pushEvents, benignEvt uri e = true) :
    (analyze_code env uri).result = .ok [] := by
  unfold analyze_code
  cases hsp : env.supportsPull with
  | false =>
    simp only [Bool.false_eq_true, if_false]
    exact analyzePush_benign_ok env.pushEvents uri _ hb
  | true =>
    have hpr : env.pullResult = .ok .noItems := by
      rcases hpull with hp | hp
      · rw [hsp] at hp; cases hp
      · exact hp
    simp only [if_true, hpr]
    exact analyzePush_benign_ok env.pushEvents uri _ hb

/-- C2, witness: the concrete environment `envC2` (push strategy; a log
message, a non-matching publish, a server request and assorted noise arrive,
then the window elapses) yields `Ok []`. -/
theorem c2_witness : (analyze_code envC2 uriMain).result = .ok [] :=
  c2_diagnostics_timeout envC2 uriMain (Or.inl (by decide)) (by decide)

/-- C3, counterexample: the claim asserts a `didClose` is sent on every exit
path, including transport errors.  In `envC3` the socket reports a transport
error during the wait loop; `analyze_code` returns the error having sent only
the `didOpen` — no `didClose` is ever sent for the opened document. -/
theorem c3_counterexample :
    analyze_code envC3 uriMain =
      { result := .err ("io error".toList), sent := [SentM.didOpen uriMain] } ∧
    SentM.didClose uriMain ∉ (analyze_code envC3 uriMain).sent := by
  decide

/-- C3, amended: a `didClose` for the opened virtual document is sent on every
exit path that returns diagnostics — pull-strategy success, push-notification
match, and the timeout path — i.e. whenever `analyze_code` returns `Ok`; on
the transport-error, connection-closed and failed-pull-request paths the
function returns the error without sending `didClose`. -/
theorem c3_didclose_on_ok (env : AnalyzeEnv) (uri : List Char) (ds : List DiagnosticM)
    (h : (analyze_code env uri).result = .ok ds) :
    SentM.didClose uri ∈ (analyze_code env uri).sent := by
  unfold analyze_code at h ⊢
  cases hsp : env.supportsPull with
  | false =>
    rw [hsp] at h
    simp only [Bool.false_eq_true, if_false] at h ⊢
    exact analyzePush_ok_closes env.pushEvents uri _ ds h
  | true =>
    rw [hsp] at h
    simp only [if_true] at h ⊢
    cases hpr : env.pullResult with
    | error e =>
      rw [hpr] at h
      simp at h
    | ok pv =>
      rw [hpr] at h
      cases pv with
      | items ds2 => simp
      | noItems =>
        exact analyzePush_ok_closes env.pushEvents uri
          ([SentM.didOpen uri] ++ [SentM.didClose uri]) ds h

/-- C3, witness: with pull diagnostics succeeding (`envC3w`), the document is
closed. -/
theorem c3_witness : SentM.didClose uriMain ∈ (analyze_code envC3w uriMain).sent :=
  c3_didclose_on_ok envC3w uriMain [diagC1] (by decide)

/-! ## C1 / C6 — the orchestrator loop -/

/-- C1, counterexample: the claim asserts that Error-severity diagnostics on a
no-tool-call, code-bearing turn cause a correction request to be appended as a
user message and the model to be dispatched again.  In `envC1` the first turn
carries a BSL block whose analysis yields an Error diagnostic (the collected
per-block error list is nonempty), yet the run makes exactly one dispatch,
appends only the assistant message — no user-role message at all — and stops:
the correction-request branch is disabled in the source (commented out). -/
theorem c1_counterexample :
    (stream_chat_loop envC1 []).dispatches = 1 ∧
    (stream_chat_loop envC1 []).messages = [asstC1] ∧
    (stream_chat_loop envC1 []).messages.filter (fun m => m.role = "user".toList) = [] ∧
    (validateLoop envC1 0 0 (extract_bsl_code (asstC1.content.getD [])) [] []).1 ≠ [] := by
  decide

/-- C1, amended: when a turn has no tool calls but contains fenced code
blocks, the orchestrator submits each block to `analyze` and emits the
validation result, but then exits the loop unconditionally — no correction
request is appended, no user-role message is added, and the model is not
dispatched again, whether or not Error diagnostics were collected (the
auto-fix loop is disabled in the source, so the fix-attempt bound is never
exercised). -/
theorem c1_fix_loop_disabled (env : OrchEnv) (initial : List ApiMsgM) (am : ApiMsgM)
    (hresp : env.responses 0 = .ok am)
    (htc : am.tool_calls = none)
    (hblocks : extract_bsl_code (am.content.getD []) ≠ [])
    (hto : env.validationTimesOut 0 = false) :
    stream_chat_loop env initial =
      { messages := initial ++ [am], chunks := [],
        validations := [(validateLoop env 0 0 (extract_bsl_code (am.content.getD [])) [] []).2],
        dispatches := 1, failed := none } := by
  show orchLoopF env (maxIterations + 2) initial [] [] 0 0 = _
  rw [show maxIterations + 2 = 8 + 1 from rfl]
  rw [orchLoopF]
  rw [if_neg (by simp [maxIterations]), hresp]
  simp only
  rw [htc]
  simp only
  rw [if_neg hblocks, hto]
  simp only [Bool.false_eq_true, if_false, List.nil_append, ite_self]

/-- C1, witness: the amended theorem applied to the concrete `envC1`. -/
theorem c1_witness :
    stream_chat_loop envC1 [] =
      { messages := [] ++ [asstC1], chunks := [],
        validations :=
          [(validateLoop envC1 0 0 (extract_bsl_code (asstC1.content.getD [])) [] []).2],
        dispatches := 1, failed := none } :=
  c1_fix_loop_disabled envC1 [] asstC1 rfl rfl (by decide) rfl

theorem orchLoopF_dispatch_le (env : OrchEnv) :
    ∀ (fuel : Nat) (msgs : List ApiMsgM) (chs : List (List Char))
      (vals : List (List UiDiagM)) (disp iter : Nat),
      (orchLoopF env fuel msgs chs vals disp iter).dispatches ≤
        disp + (maxIterations - iter) := by
  intro fuel
  induction fuel with
  | zero =>
    intro msgs chs vals disp iter
    simp [orchLoopF]
  | succ f ih =>
    intro msgs chs vals disp iter
    by_cases hit : iter + 1 > maxIterations
    · simp [orchLoopF, hit]
    · simp only [orchLoopF, hit, if_false]
      have hile : iter + 1 ≤ maxIterations := by omega
      cases hr : env.responses disp with
      | error e => simp [maxIterations] at hile ⊢; omega
      | ok am =>
        simp only
        cases htc : am.tool_calls with
        | some tcs =>
          simp only
          by_cases happ : env.approvals disp
          · simp only [happ, if_true]
            have := ih (msgs ++ [am] ++ tcs.enum.map
              (fun pr => toolResultMsg (env.toolResults disp pr.1) pr.2)) chs vals
              (disp + 1) (iter + 1)
            simp [maxIterations] at hile this ⊢
            omega
          · simp only [happ, Bool.false_eq_true, if_false]
            have := ih (msgs ++ [am] ++ tcs.map rejectedToolMsg) chs vals (disp + 1) (iter + 1)
            simp [maxIterations] at hile this ⊢
            omega
        | none =>
          simp only
          by_cases hb : extract_bsl_code (am.content.getD []) = []
          · simp [hb, maxIterations] at hile ⊢; omega
          · simp only [hb, if_false]
            by_cases hto : env.validationTimesOut disp
            · simp [hto, maxIterations] at hile ⊢; omega
            · simp only [hto, Bool.false_eq_true, if_false]
              simp [maxIterations] at hile ⊢
              omega

theorem orchLoopF_all_tools (env : OrchEnv) :
    ∀ (m fuel : Nat) (msgs : List ApiMsgM) (chs : List (List Char))
      (vals : List (List UiDiagM)) (disp iter : Nat),
      iter + m = maxIterations → m < fuel →
      (∀ k, disp ≤ k → k < disp + m → okToolRound env k = true) →
      (orchLoopF env fuel msgs chs vals disp iter).dispatches = disp + m ∧
      (orchLoopF env fuel msgs chs vals disp iter).chunks = chs ++ [limitNotice] := by
  intro m
  induction m with
  | zero =>
    intro fuel msgs chs vals disp iter hit hf _
    cases fuel with
    | zero => omega
    | succ f =>
      have hiter : iter = maxIterations := by omega
      subst hiter
      rw [orchLoopF, if_pos (by omega)]
      simp
  | succ m ih =>
    intro fuel msgs chs vals disp iter hit hf htools
    cases fuel with
    | zero => omega
    | succ f =>
      rw [orchLoopF, if_neg (by omega)]
      have hk := htools disp (le_refl _) (by omega)
      unfold okToolRound at hk
      cases hr : env.responses disp with
      | error e => rw [hr] at hk; simp at hk
      | ok am =>
        rw [hr] at hk
        simp only
        cases htc : am.tool_calls with
        | none => simp [htc] at hk
        | some tcs =>
          simp only
          have htools2 : ∀ k, disp + 1 ≤ k → k < disp + 1 + m → okToolRound env k = true :=
            fun k h1 h2 => htools k (by omega) (by omega)
          by_cases happ : env.approvals disp
          · rw [if_pos happ]
            have hrec := ih f (msgs ++ [am] ++ List.map
              (fun pr => toolResultMsg (env.toolResults disp pr.1) pr.2) tcs.enum)
              chs vals (disp + 1) (iter + 1) (by omega) (by omega) htools2
            exact ⟨hrec.1.trans (by omega), hrec.2⟩
          · rw [if_neg happ]
            have hrec := ih f (msgs ++ [am] ++ List.map rejectedToolMsg tcs)
              chs vals (disp + 1) (iter + 1) (by omega) (by omega) htools2
            exact ⟨hrec.1.trans (by omega), hrec.2⟩

/-- C6: the orchestrator's dispatch loop makes at most `maxIterations = 7`
model dispatches per run, counting tool-call rounds; and when every round up
to the ceiling is a tool-call round (so the ceiling is exceeded), the loop
appends the system notice to the visible transcript (a `chat-chunk` emission)
and stops after exactly 7 dispatches — the model is not dispatched again, so
the loop always terminates. -/
theorem c6_iteration_ceiling :
    (∀ (env : OrchEnv) (initial : List ApiMsgM),
      (stream_chat_loop env initial).dispatches ≤ maxIterations) ∧
    (∀ (env : OrchEnv) (initial : List ApiMsgM),
      (∀ k, k < maxIterations → okToolRound env k = true) →
      (stream_chat_loop env initial).dispatches = maxIterations ∧
      limitNotice ∈ (stream_chat_loop env initial).chunks) := by
  constructor
  · intro env initial
    have := orchLoopF_dispatch_le env (maxIterations + 2) initial [] [] 0 0
    simpa [stream_chat_loop] using this
  · intro env initial h
    have hres := orchLoopF_all_tools env maxIterations (maxIterations + 2) initial [] [] 0 0
      (by omega) (by omega) (fun k h1 h2 => h k (by omega))
    refine ⟨hres.1, ?_⟩
    rw [show (stream_chat_loop env initial).chunks =
      (orchLoopF env (maxIterations + 2) initial [] [] 0 0).chunks from rfl, hres.2]
    simp

/-- C6, witness: with every dispatch returning a tool-call turn (`envC6`), the
run makes exactly 7 dispatches and the notice lands in the transcript. -/
theorem c6_witness :
    (stream_chat_loop envC6 []).dispatches = maxIterations ∧
    limitNotice ∈ (stream_chat_loop envC6 []).chunks :=
  c6_iteration_ceiling.2 envC6 [] (by decide)

/-- C4, witness: the amended routing theorem at concrete fragments
`A<thinking>B` and `C</thinking>D`. -/
theorem c4_witness :
    procFrags [("A".toList) ++ thinkStartMark ++ ("B".toList),
      ("C".toList) ++ thinkEndMark ++ ("D".toList)] =
      (false, ("A".toList) ++ ("D".toList), ("B".toList) ++ ("C".toList)) :=
  c4_thinking_routing _ _ _ _ (by decide) (by decide) (by decide) (by decide)

/-! ## C8 — empty snippet never deletes content (spec-modelled reconciler) -/

/-- C8: reconciling any original text with the empty AI snippet returns the
original unchanged, for every declared target and original symbol table (the
empty snippet has an empty symbol table — the Symbol Service returns an empty
tree for a snippet with no recognisable symbols).  With a declared target the
replace step cannot resolve the target in the empty AI table and the
full-module fallback's symbol-count test fails, so no change is made; with no
declared target the addition step finds no additions; in every case the
original survives and nothing is deleted, so the half-length merge-safety
abort is never even reached. -/
theorem c8_empty_snippet_identity (original : List Char) (declared : Option (List Char))
    (origSyms : List SymbolM) :
    reconcile original [] declared origSyms [] = original := by
  unfold reconcile
  have hda : detectAction (List.take 15 (linesOf ([] : List Char))) = none := rfl
  rw [hda]
  cases declared with
  | none => simp [List.filter]
  | some t =>
    simp only [Option.getD]
    have h2 : lookupSym ([] : List SymbolM) t = none := rfl
    cases h1 : lookupSym origSyms t <;>
      simp [h1, h2, lookupSym, List.find?]

/-! ## C9 — fenced-code extraction -/

theorem isPreOf_head_notMem {hc : Char} {pr s : List Char} (h : hc ∉ s) :
    isPreOf (hc :: pr) s = false := by
  cases s with
  | nil => rfl
  | cons c t =>
    have hne : hc ≠ c := fun he => h (he ▸ List.mem_cons_self c t)
    simp [isPreOf, hne]

theorem isPreOf_append_cancel (x y z : List Char) :
    isPreOf (x ++ y) (x ++ z) = isPreOf y z := by
  induction x with
  | nil => simp
  | cons a as ih => simp [isPreOf, ih]

theorem isPreOf_false_of_concrete {pat pre : List Char} (z : List Char)
    (h : isPreOf (pat.take pre.length) pre = false) :
    isPreOf pat (pre ++ z) = false := by
  induction pre generalizing pat with
  | nil => simp [isPreOf] at h
  | cons p ps ih =>
    cases pat with
    | nil => simp [isPreOf] at h
    | cons a as =>
      simp only [List.length_cons, List.take_succ_cons, isPreOf, Bool.and_eq_false_iff] at h
      rcases h with h | h
      · simp [isPreOf, h]
      · simp only [List.cons_append, isPreOf, List.append_eq, ih h, Bool.and_false]

theorem findSub_cons_shift {pat : List Char} {c : Char} {t : List Char}
    (h : isPreOf pat (c :: t) = false) :
    findSub pat (c :: t) = (findSub pat t).map (· + 1) := by
  simp [findSub, h]

theorem findSub_region (pat region : List Char) :
    ∀ (q : Nat) (z : List Char),
      q + pat.length ≤ region.length →
      isPreOf pat (region.drop q) = true →
      (∀ k, k < q → isPreOf pat (region.drop k) = false) →
      findSub pat (region ++ z) = some q := by
  induction region with
  | nil =>
    intro q z hq hmatch _
    have hp : pat = [] := by
      cases pat with
      | nil => rfl
      | cons a as => simp at hq
    have hq0 : q = 0 := by simp at hq; omega
    subst hp hq0
    simpa using findSub_nil_pat z
  | cons r rs ih =>
    intro q z hq hmatch hbefore
    cases q with
    | zero =>
      have hlen : pat.length ≤ (r :: rs).length := by simpa using hq
      have : isPreOf pat ((r :: rs) ++ z) = true := by
        rw [isPreOf_append_of_le z hlen]
        simpa using hmatch
      cases pat with
      | nil => simpa using findSub_nil_pat ((r :: rs) ++ z)
      | cons a as =>
        rw [List.cons_append]
        have h2 : isPreOf (a :: as) (r :: (rs ++ z)) = true := by
          simpa using this
        simp [findSub, h2]
    | succ q2 =>
      have h0 : isPreOf pat (r :: rs) = false := by
        simpa using hbefore 0 (Nat.succ_pos _)
      have hfull : isPreOf pat (r :: (rs ++ z)) = false := by
        have hlen : pat.length ≤ (r :: rs).length := by simp at hq ⊢; omega
        have := isPreOf_append_of_le (s := r :: rs) z hlen
        simp only [List.cons_append] at this
        rw [this]
        exact h0
      have hrec := ih q2 z (by simp at hq ⊢; omega) (by simpa using hmatch)
        (fun k hk => by simpa using hbefore (k + 1) (by omega))
      simp only [List.cons_append, findSub_cons_shift hfull, hrec, Option.map_some']

theorem findSub_region_none (pat region : List Char) :
    ∀ (z : List Char),
      (∀ k, k < region.length →
        isPreOf (pat.take (region.length - k)) (region.drop k) = false) →
      findSub pat (region ++ z) = (findSub pat z).map (· + region.length) := by
  induction region with
  | nil =>
    intro z _
    cases hz : findSub pat z <;> simp [hz]
  | cons r rs ih =>
    intro z hall
    have h0 : isPreOf (pat.take (rs.length + 1)) (r :: rs) = false := by
      simpa using hall 0 (Nat.succ_pos _)
    have hfull : isPreOf pat ((r :: rs) ++ z) = false := by
      refine isPreOf_false_of_concrete z ?_
      simpa using h0
    have hrec := ih z (fun k hk => by
      simpa using hall (k + 1) (by simp only [List.length_cons]; omega))
    simp only [List.cons_append] at hfull
    rw [List.cons_append, findSub_cons_shift hfull, hrec]
    cases hz : findSub pat z <;> simp [hz]
    omega

theorem findSub_skip_notMem {pat x z : List Char} {hc : Char}
    (hhead : pat.head? = some hc) (hx : hc ∉ x) :
    findSub pat (x ++ z) = (findSub pat z).map (· + x.length) := by
  cases pat with
  | nil => simp at hhead
  | cons p pr =>
    simp only [List.head?_cons, Option.some.injEq] at hhead
    subst hhead
    induction x with
    | nil =>
      cases hz : findSub (p :: pr) z <;> simp [hz]
    | cons c t ih =>
      have hne : p ≠ c := fun he => hx (he ▸ List.mem_cons_self c t)
      have ht : p ∉ t := fun hm => hx (List.mem_cons_of_mem c hm)
      have hiso : isPreOf (p :: pr) (c :: (t ++ z)) = false := by simp [isPreOf, hne]
      rw [List.cons_append, findSub_cons_shift hiso, ih ht]
      cases hz : findSub (p :: pr) z <;> simp [hz]
      omega

theorem findSub_none_of_head {pat s : List Char} {hc : Char}
    (hh : pat.head? = some hc) (h : hc ∉ s) : findSub pat s = none := by
  cases pat with
  | nil => simp at hh
  | cons p pr =>
    simp only [List.head?_cons, Option.some.injEq] at hh
    subst hh
    exact findSub_none_of_head_notMem h

theorem extractFencedF_none {marker s : List Char} {fuel : Nat}
    (h : findSub marker s = none) : extractFencedF marker fuel s = [] := by
  cases fuel <;> simp [extractFencedF, h]

theorem extractFencedF_noClose {marker s : List Char} {fuel i : Nat}
    (h : findSub marker s = some i)
    (h2 : findSub fenceMark (s.drop (i + marker.length)) = none) :
    extractFencedF marker fuel s = [] := by
  cases fuel <;> simp [extractFencedF, h, h2]

theorem extractFencedF_step {marker s : List Char} {fuel i j : Nat}
    (h : findSub marker s = some i)
    (h2 : findSub fenceMark (s.drop (i + marker.length)) = some j)
    (hf : s.length ≤ fuel) :
    extractFencedF marker fuel s =
      trimRust ((s.drop (i + marker.length)).take j) ::
        extractFencedF marker (fuel - 1) ((s.drop (i + marker.length)).drop (j + 3)) := by
  have hj := findSub_le h2
  have h3 : fenceMark.length = 3 := by decide
  rw [h3] at hj
  simp only [List.length_drop] at hj
  have hs : 1 ≤ s.length := by omega
  cases fuel with
  | zero => omega
  | succ f => simp [extractFencedF, h, h2]

theorem findSub_onec_fence_none {e : List Char} (hbe : btick ∉ e)
    (h1c : isPreOf ("1c".toList) e = false) :
    findSub onecOpenMark (fenceMark ++ e) = none := by
  have hfm : fenceMark = btick :: btick :: btick :: [] := by decide
  have h0 : isPreOf onecOpenMark (fenceMark ++ e) = false := by
    have hoc : onecOpenMark = fenceMark ++ ("1c".toList) := by decide
    rw [hoc, isPreOf_append_cancel]
    exact h1c
  have h1 : isPreOf onecOpenMark (btick :: btick :: e) = false := by
    have hoc : onecOpenMark = btick :: btick :: (btick :: '1' :: 'c' :: []) := by decide
    rw [hoc]
    simpa [isPreOf] using @isPreOf_head_notMem btick (['1', 'c']) e hbe
  have h2 : isPreOf onecOpenMark (btick :: e) = false := by
    have hoc : onecOpenMark = btick :: (btick :: btick :: '1' :: 'c' :: []) := by decide
    rw [hoc]
    simpa [isPreOf] using @isPreOf_head_notMem btick (btick :: '1' :: 'c' :: []) e hbe
  rw [hfm] at h0 ⊢
  simp only [List.cons_append, List.nil_append] at h0 ⊢
  rw [findSub_cons_shift h0, findSub_cons_shift h1, findSub_cons_shift h2,
    @findSub_none_of_head onecOpenMark e btick (by decide) hbe]
  rfl

theorem c9aux_bsl (a b d e : List Char) (ha : btick ∉ a) (hb : btick ∉ b)
    (hd : btick ∉ d) (he : btick ∉ e) :
    extractFenced bslOpenMark
      (a ++ (onecOpenMark ++ (b ++ (fenceMark ++ (bslOpenMark ++ (d ++ (fenceMark ++ e))))))) =
      [trimRust d] := by
  have hregB : findSub bslOpenMark
      ((fenceMark ++ bslOpenMark) ++ (d ++ (fenceMark ++ e))) = some 3 :=
    findSub_region bslOpenMark (fenceMark ++ bslOpenMark) 3 _ (by decide) (by decide)
      (by decide)
  have h3 : findSub bslOpenMark
      (fenceMark ++ (bslOpenMark ++ (d ++ (fenceMark ++ e)))) = some 3 := by
    rw [← List.append_assoc]
    exact hregB
  have h4 : findSub bslOpenMark
      (b ++ (fenceMark ++ (bslOpenMark ++ (d ++ (fenceMark ++ e))))) =
      some (3 + b.length) := by
    rw [findSub_skip_notMem (by decide) hb, h3]
    rfl
  have h5 : findSub bslOpenMark
      (onecOpenMark ++ (b ++ (fenceMark ++ (bslOpenMark ++ (d ++ (fenceMark ++ e)))))) =
      some (3 + b.length + 5) := by
    rw [findSub_region_none bslOpenMark onecOpenMark _ (by decide), h4]
    rfl
  have h6 : findSub bslOpenMark
      (a ++ (onecOpenMark ++ (b ++ (fenceMark ++ (bslOpenMark ++ (d ++ (fenceMark ++ e))))))) =
      some (3 + b.length + 5 + a.length) := by
    rw [findSub_skip_notMem (by decide) ha, h5]
    rfl
  have hTsplit :
      a ++ (onecOpenMark ++ (b ++ (fenceMark ++ (bslOpenMark ++ (d ++ (fenceMark ++ e)))))) =
        (a ++ (onecOpenMark ++ (b ++ (fenceMark ++ bslOpenMark)))) ++ (d ++ (fenceMark ++ e)) := by
    simp [List.append_assoc]
  have hPlen : (a ++ (onecOpenMark ++ (b ++ (fenceMark ++ bslOpenMark)))).length =
      3 + b.length + 5 + a.length + bslOpenMark.length := by
    simp only [List.length_append, show onecOpenMark.length = 5 from by decide,
      show fenceMark.length = 3 from by decide, show bslOpenMark.length = 6 from by decide]
    omega
  have hafter :
      (a ++ (onecOpenMark ++ (b ++ (fenceMark ++ (bslOpenMark ++ (d ++ (fenceMark ++ e))))))).drop
        (3 + b.length + 5 + a.length + bslOpenMark.length) = d ++ (fenceMark ++ e) := by
    rw [hTsplit, ← hPlen]
    exact List.drop_left _ _
  have hFcons : fenceMark = btick :: (btick :: btick :: []) := by decide
  have hclose : findSub fenceMark (d ++ (fenceMark ++ e)) = some d.length := by
    rw [← List.append_assoc, hFcons]
    exact findSub_boundary _ e hd
  have htk : (d ++ (fenceMark ++ e)).take d.length = d := by
    rw [List.take_append_of_le_length (by simp)]
    simp
  have hdr : (d ++ (fenceMark ++ e)).drop (d.length + 3) = e := by
    have hlen : (d ++ fenceMark).length = d.length + 3 := by
      simp only [List.length_append, show fenceMark.length = 3 from by decide]
    rw [← List.append_assoc, ← hlen]
    exact List.drop_left _ _
  unfold extractFenced
  rw [extractFencedF_step h6 (by rw [hafter]; exact hclose) (le_refl _)]
  rw [hafter, htk, hdr]
  rw [extractFencedF_none (findSub_none_of_head (by decide) he)]

theorem c9aux_onec (a b d e : List Char) (ha : btick ∉ a) (hb : btick ∉ b)
    (hd : btick ∉ d) (he : btick ∉ e) (h1c : isPreOf ("1c".toList) e = false) :
    extractFenced onecOpenMark
      (a ++ (onecOpenMark ++ (b ++ (fenceMark ++ (bslOpenMark ++ (d ++ (fenceMark ++ e))))))) =
      [trimRust b] := by
  have hOcons : onecOpenMark = btick :: (btick :: btick :: '1' :: 'c' :: []) := by decide
  have h1 : findSub onecOpenMark
      (a ++ (onecOpenMark ++ (b ++ (fenceMark ++ (bslOpenMark ++ (d ++ (fenceMark ++ e))))))) =
      some a.length := by
    rw [← List.append_assoc, hOcons]
    exact findSub_boundary _ _ ha
  have hTsplit :
      a ++ (onecOpenMark ++ (b ++ (fenceMark ++ (bslOpenMark ++ (d ++ (fenceMark ++ e)))))) =
        (a ++ onecOpenMark) ++ (b ++ (fenceMark ++ (bslOpenMark ++ (d ++ (fenceMark ++ e))))) := by
    simp [List.append_assoc]
  have hPlen : (a ++ onecOpenMark).length = a.length + onecOpenMark.length := by simp
  have hafter :
      (a ++ (onecOpenMark ++ (b ++ (fenceMark ++ (bslOpenMark ++ (d ++ (fenceMark ++ e))))))).drop
        (a.length + onecOpenMark.length) =
        b ++ (fenceMark ++ (bslOpenMark ++ (d ++ (fenceMark ++ e)))) := by
    rw [hTsplit, ← hPlen]
    exact List.drop_left _ _
  have hFcons : fenceMark = btick :: (btick :: btick :: []) := by decide
  have hclose : findSub fenceMark
      (b ++ (fenceMark ++ (bslOpenMark ++ (d ++ (fenceMark ++ e))))) = some b.length := by
    rw [← List.append_assoc, hFcons]
    exact findSub_boundary _ _ hb
  have htk : (b ++ (fenceMark ++ (bslOpenMark ++ (d ++ (fenceMark ++ e))))).take b.length = b := by
    rw [List.take_append_of_le_length (by simp)]
    simp
  have hdr : (b ++ (fenceMark ++ (bslOpenMark ++ (d ++ (fenceMark ++ e))))).drop
      (b.length + 3) = bslOpenMark ++ (d ++ (fenceMark ++ e)) := by
    have hlen : (b ++ fenceMark).length = b.length + 3 := by
      simp only [List.length_append, show fenceMark.length = 3 from by decide]
    rw [← List.append_assoc, ← hlen]
    exact List.drop_left _ _
  have hrest : findSub onecOpenMark (bslOpenMark ++ (d ++ (fenceMark ++ e))) = none := by
    rw [findSub_region_none onecOpenMark bslOpenMark _ (by decide)]
    rw [findSub_skip_notMem (by decide) hd]
    rw [findSub_onec_fence_none he h1c]
    rfl
  unfold extractFenced
  rw [extractFencedF_step h1 (by rw [hafter]; exact hclose) (le_refl _)]
  rw [hafter, htk, hdr]
  rw [extractFencedF_none hrest]

/-- C9: `extract_bsl_code` collects the trimmed contents of the ```bsl fenced
blocks and then the trimmed contents of the ```1c fenced blocks, so every bsl
block precedes every 1c block in the result even when the 1c block comes first
in the text; and an opening fence with no closing ``` contributes nothing.
Stated over the representative family: an arbitrary backtick-free prefix `a`,
a ```1c block with backtick-free contents `b`, then a ```bsl block with
backtick-free contents `d`, then a backtick-free tail `e` that does not begin
with `1c` (so the closing fence of the bsl block does not spuriously open a 1c
block); and, for the unclosed case, an unterminated ```bsl fence. -/
theorem c9_extract_bsl_code :
    (∀ a b d e : List Char, btick ∉ a → btick ∉ b → btick ∉ d → btick ∉ e →
      isPreOf ("1c".toList) e = false →
      extract_bsl_code
        (a ++ (onecOpenMark ++ (b ++ (fenceMark ++ (bslOpenMark ++ (d ++ (fenceMark ++ e))))))) =
        [trimRust d, trimRust b]) ∧
    (∀ a b : List Char, btick ∉ a → btick ∉ b →
      extract_bsl_code (a ++ (bslOpenMark ++ b)) = []) := by
  constructor
  · intro a b d e ha hb hd he h1c
    unfold extract_bsl_code
    rw [c9aux_bsl a b d e ha hb hd he, c9aux_onec a b d e ha hb hd he h1c]
    rfl
  · intro a b ha hb
    have hBcons : bslOpenMark = btick :: (btick :: btick :: 'b' :: 's' :: 'l' :: []) := by decide
    have h1 : findSub bslOpenMark (a ++ (bslOpenMark ++ b)) = some a.length := by
      rw [← List.append_assoc, hBcons]
      exact findSub_boundary _ _ ha
    have hafter : (a ++ (bslOpenMark ++ b)).drop (a.length + bslOpenMark.length) = b := by
      have hlen : (a ++ bslOpenMark).length = a.length + bslOpenMark.length := by simp
      rw [← List.append_assoc, ← hlen]
      exact List.drop_left _ _
    have hbsl : extractFenced bslOpenMark (a ++ (bslOpenMark ++ b)) = [] := by
      unfold extractFenced
      refine extractFencedF_noClose h1 ?_
      rw [hafter]
      exact findSub_none_of_head (by decide) hb
    have honec : extractFenced onecOpenMark (a ++ (bslOpenMark ++ b)) = [] := by
      unfold extractFenced
      refine extractFencedF_none ?_
      rw [findSub_skip_notMem (by decide) ha]
      rw [findSub_region_none onecOpenMark bslOpenMark _ (by decide)]
      rw [@findSub_none_of_head onecOpenMark b btick (by decide) hb]
      rfl
    unfold extract_bsl_code
    rw [hbsl, honec]
    rfl

/-- C9, witness: the family theorem at concrete texts — a 1c block ` Y `
preceding a bsl block ` X ` yields `[X, Y]`, and an unterminated bsl fence
yields `[]`. -/
theorem c9_witness :
    extract_bsl_code
      (("start ".toList) ++ (onecOpenMark ++ (("\n Y \n".toList) ++ (fenceMark ++
        (bslOpenMark ++ (("\n X \n".toList) ++ (fenceMark ++ (" tail".toList)))))))) =
      [trimRust ("\n X \n".toList), trimRust ("\n Y \n".toList)] ∧
    extract_bsl_code (("open ".toList) ++ (bslOpenMark ++ (" never closed".toList))) = [] :=
  ⟨c9_extract_bsl_code.1 _ _ _ _ (by decide) (by decide) (by decide) (by decide) (by decide),
   c9_extract_bsl_code.2 _ _ (by decide) (by decide)⟩
